import Mathlib

/-
Verification of the xml2json library (src/src/index.js and its revision
src/unnamed/part_001).

The core of the library is `XML2JSON.parse`: it registers callbacks on a
SAX-style lexical scanner (configured with lowercase:true, trim:true) and
builds a JSON tree from the ordered event stream.  We embed the builder as
a state machine over that event stream: the lexical scanner itself is an
external collaborator and is out of scope, so theorems quantify over event
streams (well-nested streams are generated from `Item` trees below).

Modeling decisions:
* JavaScript objects are modeled as insertion-ordered association lists
  with unique keys (`JObj`).  Property assignment replaces in place or
  appends; `delete` removes the entry.  Prototype-chain (inherited)
  properties are not modeled: `k in o` is membership of `k` among the own
  keys of `o`.
* The mutable `elementsStack` of the source holds references into the tree
  hanging off `jsonObj`; a reference is modeled as the access path (`JPath`)
  from `jsonObj` to the referenced node, and mutation through a reference
  as `modifyV` at that path.
* A JavaScript runtime error (TypeError from dereferencing undefined, etc.)
  aborts `parser.write`, so the completion callback is never invoked; this
  is modeled by `Option`: `none` means the build threw.  `parse evs = some r`
  means the callback was invoked exactly once, with tree `r`.
-/

/-- A JSON-compatible dynamic value, as stored by the builder. -/
inductive JValue where
  | str (s : String)
  | num (n : Nat)
  | obj (entries : List (String × JValue))
  | arr (elems : List JValue)

/-- A JavaScript object: insertion-ordered association list. -/
abbrev JObj := List (String × JValue)

/-- Property read `o[key]` (own properties only). -/
def lookupKey : JObj → String → Option JValue
  | [], _ => none
  | (k, v) :: rest, key => if k = key then some v else lookupKey rest key

/-- The JavaScript `key in o` check (own properties only, see header). -/
def hasKey (o : JObj) (key : String) : Bool :=
  (lookupKey o key).isSome

/-- Property assignment `o[key] = v`: replaces in place, or appends. -/
def setKey : JObj → String → JValue → JObj
  | [], key, v => [(key, v)]
  | (k, w) :: rest, key, v =>
      if k = key then (key, v) :: rest else (k, w) :: setKey rest key v

/-- Property removal `delete o[key]`. -/
def delKey : JObj → String → JObj
  | [], _ => []
  | (k, w) :: rest, key => if k = key then rest else (k, w) :: delKey rest key

/-- Attributes as delivered by the scanner at an open-tag event. -/
abbrev Attrs := List (String × String)

/-- The attributes object `tag.attributes`. -/
def attrsToVal (a : Attrs) : JValue :=
  .obj (a.map (fun kv => (kv.1, JValue.str kv.2)))

/-- The lexical events the scanner delivers to the registered callbacks
(src/src/index.js lines 67 to 141).  `error` is the scanner's onerror;
end-of-document is implicit at the end of the stream. -/
inductive Event where
  | openTag (name : String) (attributes : Attrs)
  | text (s : String)
  | opencdata
  | cdata (s : String)
  | closecdata
  | closetag
  | error

/-- One step of a reference path: the key, plus the array index when the
reference is to an element of the array stored under that key. -/
abbrev JPath := List (String × Option Nat)

/-- Dereference a path. -/
def getV : JValue → JPath → Option JValue
  | v, [] => some v
  | .obj o, (key, none) :: p =>
      match lookupKey o key with
      | some w => getV w p
      | none => none
  | .obj o, (key, some i) :: p =>
      match lookupKey o key with
      | some (.arr xs) =>
          match xs[i]? with
          | some w => getV w p
          | none => none
      | _ => none
  | _, _ :: _ => none

/-- Mutate the node a path refers to. -/
def modifyV (f : JValue → Option JValue) : JValue → JPath → Option JValue
  | v, [] => f v
  | .obj o, (key, none) :: p =>
      match lookupKey o key with
      | some w => (modifyV f w p).map (fun w' => .obj (setKey o key w'))
      | none => none
  | .obj o, (key, some i) :: p =>
      match lookupKey o key with
      | some (.arr xs) =>
          match xs[i]? with
          | some w => (modifyV f w p).map
              (fun w' => .obj (setKey o key (.arr (xs.set i w'))))
          | none => none
      | _ => none
  | _, _ :: _ => none

/-- Dereference a path starting at the root object `jsonObj`. -/
def getO (root : JObj) (p : JPath) : Option JValue :=
  getV (.obj root) p

/-- Mutate starting at the root object `jsonObj`. -/
def modifyO (f : JValue → Option JValue) (root : JObj) (p : JPath) : Option JObj :=
  match modifyV f (.obj root) p with
  | some (.obj root') => some root'
  | _ => none

/-- Overwrite the node a path refers to. -/
def setO (root : JObj) (p : JPath) (v : JValue) : Option JObj :=
  modifyO (fun _ => some v) root p

/-- `Array.prototype.pop` on the elements stack: removes and returns the
last entry; `none` models popping an empty stack (JS yields undefined). -/
def popLast : List α → Option (List α × α)
  | [] => none
  | [x] => some ([], x)
  | x :: y :: rest =>
      match popLast (y :: rest) with
      | some (l, z) => some (x :: l, z)
      | none => none

/-- The transient construction state of one `parse` call:
`jsonObj`, `elementsStack` and the `cdata` accumulator
(src/src/index.js lines 59 to 61). -/
structure PState where
  jsonObj : JObj
  elementsStack : List JPath
  cdata : String

/-- The fresh node `{ name: tagName, attr: tagAttributes }`. -/
def newElement (tagName : String) (tagAttributes : Attrs) : JValue :=
  .obj [("name", .str tagName), ("attr", attrsToVal tagAttributes)]

/-- onopentag (src/src/index.js lines 71 to 117): if `jsonObj` is empty the
node becomes the root entry; otherwise the parent is popped off the stack
and the node attached under its tag name (fresh key, promotion of a single
existing entry to a two-element array, or append to an existing array);
parent and new node are pushed.  Popping an empty stack makes the
subsequent `tagName in parentElement` throw: `none`. -/
def onopentag (tagName : String) (tagAttributes : Attrs) (st : PState) : Option PState :=
  if st.jsonObj.length ≠ 0 then
    match popLast st.elementsStack with
    | none => none
    | some (stk, parentPath) =>
      match getO st.jsonObj parentPath with
      | some (.obj parentElement) =>
        match lookupKey parentElement tagName with
        | some (.arr xs) =>
          match setO st.jsonObj parentPath
              (.obj (setKey parentElement tagName
                (.arr (xs ++ [newElement tagName tagAttributes])))) with
          | some root' => some
              { jsonObj := root'
                elementsStack :=
                  stk ++ [parentPath, parentPath ++ [(tagName, some xs.length)]]
                cdata := st.cdata }
          | none => none
        | some v =>
          match setO st.jsonObj parentPath
              (.obj (setKey (delKey parentElement tagName) tagName
                (.arr [v, newElement tagName tagAttributes]))) with
          | some root' => some
              { jsonObj := root'
                elementsStack :=
                  stk ++ [parentPath, parentPath ++ [(tagName, some 1)]]
                cdata := st.cdata }
          | none => none
        | none =>
          match setO st.jsonObj parentPath
              (.obj (setKey parentElement tagName
                (newElement tagName tagAttributes))) with
          | some root' => some
              { jsonObj := root'
                elementsStack :=
                  stk ++ [parentPath, parentPath ++ [(tagName, none)]]
                cdata := st.cdata }
          | none => none
      | _ => none
  else
    some
      { jsonObj := setKey st.jsonObj tagName (newElement tagName tagAttributes)
        elementsStack := st.elementsStack ++ [[(tagName, none)]]
        cdata := st.cdata }

/-- Assignment `element.innerText = text` on a referenced node. -/
def setInnerText (text : String) : JValue → Option JValue
  | .obj o => some (.obj (setKey o "innerText" (.str text)))
  | _ => none

/-- ontext (src/src/index.js lines 118 to 122): pop the current element,
overwrite its innerText, push it back.  On an empty stack the property
assignment on undefined throws. -/
def ontext (text : String) (st : PState) : Option PState :=
  match popLast st.elementsStack with
  | none => none
  | some (stk, p) =>
    match modifyO (setInnerText text) st.jsonObj p with
    | some root' => some
        { jsonObj := root', elementsStack := stk ++ [p], cdata := st.cdata }
    | none => none

/-- onopencdata (lines 123 to 125): reset the accumulator. -/
def onopencdata (st : PState) : Option PState :=
  some { st with cdata := "" }

/-- oncdata (lines 126 to 128): append the chunk. -/
def oncdata (text : String) (st : PState) : Option PState :=
  some { st with cdata := st.cdata ++ text }

/-- onclosecdata (lines 129 to 134): write the accumulated text into the
current element's innerText, then clear the accumulator. -/
def onclosecdata (st : PState) : Option PState :=
  match popLast st.elementsStack with
  | none => none
  | some (stk, p) =>
    match modifyO (setInnerText st.cdata) st.jsonObj p with
    | some root' => some
        { jsonObj := root', elementsStack := stk ++ [p], cdata := "" }
    | none => none

/-- onclosetag (lines 135 to 138): drop the last stack entry
(`Array.prototype.pop` is a no-op on an empty array). -/
def onclosetag (st : PState) : Option PState :=
  some { st with elementsStack := st.elementsStack.dropLast }

/-- onerror (lines 67 to 70): log and `parser.resume()` - no state change. -/
def onerror (st : PState) : Option PState :=
  some st

/-- Dispatch one lexical event to its registered callback. -/
def step : Event → PState → Option PState
  | .openTag n a => onopentag n a
  | .text s => ontext s
  | .opencdata => onopencdata
  | .cdata s => oncdata s
  | .closecdata => onclosecdata
  | .closetag => onclosetag
  | .error => onerror

/-- Feed the events in order (`parser.write(xmlSource)`); a thrown error
aborts the stream. -/
def runEvents (st : PState) : List Event → Option PState
  | [] => some st
  | e :: evs =>
      match step e st with
      | some st' => runEvents st' evs
      | none => none

/-- XML2JSON.parse (src/src/index.js lines 58 to 143) on an event stream:
starts from empty state; onend delivers `jsonObj` to the callback, so
`some r` is the single callback invocation with tree `r` and `none` means
the build threw before onend. -/
def parse (evs : List Event) : Option JObj :=
  (runEvents { jsonObj := [], elementsStack := [], cdata := "" } evs).map
    (fun st => st.jsonObj)

/-- A JavaScript argument value as the accessors receive it. -/
inductive JSArg where
  | undef
  | nullv
  | val (v : JValue)

/-- A JavaScript return value: undefined, or an actual value. -/
inductive JSRet where
  | undef
  | ret (v : JValue)

/-- The guard `element === undefined || element === null ||
typeof element !== 'object'` (src/unnamed/part_001 lines 165 and 183).
`typeof null` is 'object' but null is caught by the preceding check;
strings and numbers are primitives; objects and arrays pass. -/
def isNonNode : JSArg → Bool
  | .undef => true
  | .nullv => true
  | .val (.str _) => true
  | .val (.num _) => true
  | .val (.obj _) => false
  | .val (.arr _) => false

/-- The JavaScript `key in xs` check on a (dense) array: canonical indices
below the length, plus `length`.  (Inherited properties not modeled.) -/
def arrHasProp (xs : List JValue) (key : String) : Bool :=
  key = "length" ||
    (match key.toNat? with
     | some i => decide (i < xs.length)
     | none => false)

/-- Array property read for the keys `arrHasProp` accepts. -/
def arrProp (xs : List JValue) (key : String) : Option JValue :=
  if key = "length" then some (.num xs.length)
  else
    match key.toNat? with
    | some i => xs.get? i
    | none => none

/-- XML2JSON.getElementAttr (src/unnamed/part_001 lines 164 to 172): after
the non-node guard, evaluates `attr in element.attr`; when `element.attr`
is undefined (key absent) or a primitive string, the `in` operator throws
a TypeError (`none`).  Returns `element.attr[attr]` when present, else
undefined.  (The src/src/index.js revision, lines 145 to 150, has the same
lookup logic but no guard and returns null instead of undefined for a
missing attribute.) -/
def getElementAttr (element : JSArg) (attr : String) : Option JSRet :=
  if isNonNode element then some .undef
  else
    match element with
    | .val (.obj o) =>
        match lookupKey o "attr" with
        | none => none
        | some (.str _) => none
        | some (.num _) => none
        | some (.obj attrs) =>
            match lookupKey attrs attr with
            | some v => some (.ret v)
            | none => some .undef
        | some (.arr xs) =>
            if arrHasProp xs attr then
              match arrProp xs attr with
              | some v => some (.ret v)
              | none => some .undef
            else some .undef
    | _ => none

/-- XML2JSON.getElementText (src/unnamed/part_001 lines 182 to 195): after
the non-node guard, evaluates `'innerText' in element || 'text' in
element.attr` (the right disjunct throws when `element.attr` is undefined
or a primitive), then returns `element.innerText`, else `element.attr.text`,
else undefined.  (The src/src/index.js revision, lines 152 to 161, is the
same chain without the guard, with null for absent.) -/
def getElementText (element : JSArg) : Option JSRet :=
  if isNonNode element then some .undef
  else
    match element with
    | .val (.obj o) =>
        match lookupKey o "innerText" with
        | some v => some (.ret v)
        | none =>
            match lookupKey o "attr" with
            | none => none
            | some (.str _) => none
            | some (.num _) => none
            | some (.obj attrs) =>
                match lookupKey attrs "text" with
                | some v => some (.ret v)
                | none => some .undef
            | some (.arr xs) =>
                if arrHasProp xs "text" then
                  match arrProp xs "text" with
                  | some v => some (.ret v)
                  | none => some .undef
                else some .undef
    | _ => none

/-- XML2JSON.parseFromFile (src/src/index.js lines 42 to 50): the outcome
of `fs.readFile` is the `readResult` argument; on success the body is
scanned (`lex` models the out-of-scope lexical scanner) and handed to
`parse`; on failure `throw Error(...)` is raised inside the read callback,
so `parse` - and hence the completion callback - is never reached.
`Except.ok t` carries the value the completion callback receives. -/
def parseFromFile (lex : String → List Event) (readResult : Except String String) :
    Except String (Option JObj) :=
  match readResult with
  | .ok data => .ok (parse (lex data))
  | .error e => .error ("An error occurred: " ++ e)

/- A well-nested XML fragment, as the spec's ordering guarantee describes:
an element with its attributes and ordered content, a run of plain text,
or a CDATA section with its chunks.  `Items` is the content list (a
dedicated list type so that all recursions are structural). -/
mutual
inductive Item where
  | txt (s : String)
  | cdataSec (chunks : List String)
  | elem (name : String) (attributes : Attrs) (content : Items)
inductive Items where
  | nil
  | cons (head : Item) (tail : Items)
end

/- Size measures for well-founded recursion in proofs. -/
mutual
def sizeIt : Item → Nat
  | .txt _ => 1
  | .cdataSec _ => 1
  | .elem _ _ cs => 1 + sizeIts cs
def sizeIts : Items → Nat
  | .nil => 0
  | .cons i rest => sizeIt i + sizeIts rest
end

/- The event stream a well-nested fragment produces: open-tag, content,
close-tag for an element; one text event for a text run; CDATA open,
chunks, CDATA close for a CDATA section. -/
mutual
def itemEvents : Item → List Event
  | .txt s => [.text s]
  | .cdataSec cks => .opencdata :: (cks.map .cdata ++ [.closecdata])
  | .elem n a cs => .openTag n a :: (itemsEvents cs ++ [.closetag])
def itemsEvents : Items → List Event
  | .nil => []
  | .cons i rest => itemEvents i ++ itemsEvents rest
end

/-- The object a fresh element starts as: `{ name, attr }`. -/
def initElement (tagName : String) (tagAttributes : Attrs) : JObj :=
  [("name", .str tagName), ("attr", attrsToVal tagAttributes)]

/-- How onopentag attaches a (completed) child under its tag name: fresh
key, promotion of the single existing entry to a two-element array, or
append to the existing array. -/
def attach (parent : JObj) (tagName : String) (child : JValue) : JObj :=
  match lookupKey parent tagName with
  | some (.arr xs) => setKey parent tagName (.arr (xs ++ [child]))
  | some v => setKey (delKey parent tagName) tagName (.arr [v, child])
  | none => setKey parent tagName child

/-- The cdata accumulator after a whole CDATA section: `cdata += chunk`
over the chunks, from the empty string. -/
def joinChunks (cks : List String) : String :=
  List.foldl (fun a c => a ++ c) "" cks

/- The compositional description of the builder: fold the content of an
element over its partial object.  `parse` is proved equal to this below. -/
mutual
def buildItem (parent : JObj) : Item → JObj
  | .txt s => setKey parent "innerText" (.str s)
  | .cdataSec cks => setKey parent "innerText" (.str (joinChunks cks))
  | .elem n a cs => attach parent n (.obj (buildItems (initElement n a) cs))
def buildItems (parent : JObj) : Items → JObj
  | .nil => parent
  | .cons i rest => buildItems (buildItem parent i) rest
end

/-- The finished node a fragment builds (only used on elements). -/
def builtOf : Item → JValue
  | .txt s => .str s
  | .cdataSec cks => .str (joinChunks cks)
  | .elem n a cs => .obj (buildItems (initElement n a) cs)

/-- The content list as an ordinary list. -/
def itemsList : Items → List Item
  | .nil => []
  | .cons i rest => i :: itemsList rest

/-- Tag names of the element children, in document order. -/
def elemTags : Items → List String
  | .nil => []
  | .cons (.elem n _ _) rest => n :: elemTags rest
  | .cons _ rest => elemTags rest

/-- The element children carrying a given tag name, in document order. -/
def elemsNamed (t : String) : Items → List Item
  | .nil => []
  | .cons (.elem n a cs) rest =>
      if n = t then .elem n a cs :: elemsNamed t rest else elemsNamed t rest
  | .cons _ rest => elemsNamed t rest

/-- What ends up under one key after a run of attachments: nothing new
keeps the old value; onto an empty slot, one node stays lone and several
become an array; onto an existing array the new nodes are appended; any
other existing value is promoted into an array in front of the new nodes. -/
def seqResult (v0 : Option JValue) (news : List JValue) : Option JValue :=
  match news with
  | [] => v0
  | c :: cs =>
      match v0 with
      | none => if cs.isEmpty then some c else some (.arr (c :: cs))
      | some (.arr xs) => some (.arr (xs ++ (c :: cs)))
      | some v => some (.arr (v :: (c :: cs)))

/- All element subtrees of a fragment, itself included. -/
mutual
def subItems : Item → List Item
  | .elem n a cs => .elem n a cs :: subItemsList cs
  | _ => []
def subItemsList : Items → List Item
  | .nil => []
  | .cons i rest => subItems i ++ subItemsList rest
end

/-- Subvalue occurrence: `Occurs v w` holds when `v` is `w` itself or sits
somewhere inside `w`'s objects and arrays. -/
inductive Occurs : JValue → JValue → Prop where
  | refl (v : JValue) : Occurs v v
  | inObj {v : JValue} (w : JValue) (o : List (String × JValue)) (k : String) :
      lookupKey o k = some w → Occurs v w → Occurs v (.obj o)
  | inArr {v : JValue} (w : JValue) (xs : List JValue) :
      w ∈ xs → Occurs v w → Occurs v (.arr xs)

/-- A value is an array. -/
def isArr : JValue → Prop
  | .arr _ => True
  | _ => False

/-- No-duplicates check on sibling tag names. -/
def nodupB : List String → Bool
  | [] => true
  | x :: xs => !(xs.contains x) && nodupB xs

/- Well-formedness for claim C2: at every level, sibling element tags are
pairwise distinct and no child tag collides with the node's own keys
`name`, `attr`, `innerText`.  (The scanner lowercases tag names, so the
`innerText` exclusion is automatic for scanner-delivered streams; `name`
and `attr` are the real exceptions.) -/
mutual
def uniqOkIt : Item → Bool
  | .txt _ => true
  | .cdataSec _ => true
  | .elem _ _ cs =>
      nodupB (elemTags cs)
      && (elemTags cs).all (fun tg => tg != "name" && tg != "attr" && tg != "innerText")
      && uniqOkIts cs
def uniqOkIts : Items → Bool
  | .nil => true
  | .cons i rest => uniqOkIt i && uniqOkIts rest
end

/- Well-formedness for claim C4: at every level no child tag is `attr`
(which would clobber the parent's attribute map) or `innerText`
(excluded by the scanner's lowercasing). -/
mutual
def attrOkIt : Item → Bool
  | .txt _ => true
  | .cdataSec _ => true
  | .elem _ _ cs =>
      (elemTags cs).all (fun tg => tg != "attr" && tg != "innerText")
      && attrOkIts cs
def attrOkIts : Items → Bool
  | .nil => true
  | .cons i rest => attrOkIt i && attrOkIts rest
end

theorem lookupKey_setKey_self (o : JObj) (k : String) (v : JValue) :
    lookupKey (setKey o k v) k = some v := by
  induction o with
  | nil => simp [setKey, lookupKey]
  | cons kv rest ih =>
      obtain ⟨k', w⟩ := kv
      by_cases h : k' = k
      · subst h; simp [setKey, lookupKey]
      · simp [setKey, lookupKey, h, ih]

theorem lookupKey_setKey_ne (o : JObj) (k k' : String) (v : JValue) (h : k' ≠ k) :
    lookupKey (setKey o k v) k' = lookupKey o k' := by
  induction o with
  | nil => simp [setKey, lookupKey, Ne.symm h]
  | cons kv rest ih =>
      obtain ⟨k'', w⟩ := kv
      by_cases h2 : k'' = k
      · subst h2
        simp [setKey, lookupKey, Ne.symm h]
      · by_cases h3 : k'' = k'
        · subst h3; simp [setKey, lookupKey, h2]
        · simp [setKey, lookupKey, h2, h3, ih]

theorem lookupKey_delKey_ne (o : JObj) (k k' : String) (h : k' ≠ k) :
    lookupKey (delKey o k) k' = lookupKey o k' := by
  induction o with
  | nil => simp [delKey]
  | cons kv rest ih =>
      obtain ⟨k'', w⟩ := kv
      by_cases h2 : k'' = k
      · subst h2
        simp [delKey, lookupKey, Ne.symm h]
      · simp [delKey, lookupKey, h2, ih]

theorem setKey_setKey (o : JObj) (k : String) (v w : JValue) :
    setKey (setKey o k v) k w = setKey o k w := by
  induction o with
  | nil => simp [setKey]
  | cons kv rest ih =>
      obtain ⟨k', u⟩ := kv
      by_cases h : k' = k
      · subst h; simp [setKey]
      · simp [setKey, h, ih]

theorem setKey_ne_nil (o : JObj) (k : String) (v : JValue) : setKey o k v ≠ [] := by
  cases o with
  | nil => simp [setKey]
  | cons kv rest =>
      obtain ⟨k', u⟩ := kv
      by_cases h : k' = k
      · subst h; simp [setKey]
      · simp [setKey, h]

theorem setKey_self_of_lookup (o : JObj) (k : String) (v : JValue)
    (h : lookupKey o k = some v) : setKey o k v = o := by
  induction o with
  | nil => simp [lookupKey] at h
  | cons kv rest ih =>
      obtain ⟨k', u⟩ := kv
      by_cases h2 : k' = k
      · subst h2
        simp [lookupKey] at h
        simp [setKey, h]
      · simp [lookupKey, h2] at h
        simp [setKey, h2, ih h]

theorem hasKey_setKey (o : JObj) (k k' : String) (v : JValue) :
    hasKey (setKey o k v) k' = (k' == k || hasKey o k') := by
  by_cases h : k' = k
  · subst h; simp [hasKey, lookupKey_setKey_self]
  · simp [hasKey, lookupKey_setKey_ne o k k' v h, h]

theorem getElem?_set_self {α : Type} (xs : List α) (i : Nat) (w0 w : α)
    (h : xs[i]? = some w0) : (xs.set i w)[i]? = some w := by
  induction xs generalizing i with
  | nil => simp at h
  | cons x rest ih =>
      cases i with
      | zero => simp [List.set]
      | succ j =>
          simp only [List.getElem?_cons_succ] at h
          simp [List.set, ih j h]

theorem getElem?_concat_self {α : Type} (xs : List α) (b : α) :
    (xs ++ [b])[xs.length]? = some b := by
  induction xs with
  | nil => simp
  | cons x rest ih => simp [ih]

theorem set_concat_self {α : Type} (xs : List α) (b c : α) :
    (xs ++ [b]).set xs.length c = xs ++ [c] := by
  induction xs with
  | nil => simp
  | cons x rest ih => simp [ih]

theorem popLast_concat {α : Type} (l : List α) (x : α) :
    popLast (l ++ [x]) = some (l, x) := by
  induction l with
  | nil => simp [popLast]
  | cons y rest ih =>
      cases h : rest ++ [x] with
      | nil => simp at h
      | cons z zs =>
          simp only [List.cons_append, popLast, h]
          rw [← h, ih]

theorem getV_append (p q : JPath) : ∀ v : JValue,
    getV v (p ++ q) = (getV v p).bind (fun w => getV w q) := by
  induction p with
  | nil => intro v; simp [getV]
  | cons s p' ih =>
      intro v
      obtain ⟨key, idx⟩ := s
      cases v with
      | str s0 => cases idx <;> simp [getV]
      | num n0 => cases idx <;> simp [getV]
      | arr xs => cases idx <;> simp [getV]
      | obj o =>
          cases idx with
          | none =>
              cases h : lookupKey o key with
              | none => simp [getV, h]
              | some w => simp [getV, h, ih]
          | some i =>
              cases h : lookupKey o key with
              | none => simp [getV, h]
              | some w =>
                  cases w with
                  | arr xs =>
                      cases h2 : xs[i]? with
                      | none => simp [getV, h, h2]
                      | some u => simp [getV, h, h2, ih]
                  | str s0 => simp [getV, h]
                  | num n0 => simp [getV, h]
                  | obj o2 => simp [getV, h]

theorem modifyV_sound (f : JValue → Option JValue) (p : JPath) :
    ∀ (v w w' : JValue), getV v p = some w → f w = some w' →
    ∃ v', modifyV f v p = some v' ∧ getV v' p = some w' := by
  induction p with
  | nil =>
      intro v w w' hg hf
      simp [getV] at hg
      subst hg
      exact ⟨w', by simp [modifyV, hf], by simp [getV]⟩
  | cons s p' ih =>
      intro v w w' hg hf
      obtain ⟨key, idx⟩ := s
      cases v with
      | str s0 => cases idx <;> simp [getV] at hg
      | num n0 => cases idx <;> simp [getV] at hg
      | arr xs => cases idx <;> simp [getV] at hg
      | obj o =>
          cases idx with
          | none =>
              cases h : lookupKey o key with
              | none => simp [getV, h] at hg
              | some u =>
                  simp only [getV, h] at hg
                  obtain ⟨u', hu1, hu2⟩ := ih u w w' hg hf
                  refine ⟨.obj (setKey o key u'), ?_, ?_⟩
                  · simp [modifyV, h, hu1]
                  · simp [getV, lookupKey_setKey_self, hu2]
          | some i =>
              cases h : lookupKey o key with
              | none => simp [getV, h] at hg
              | some u =>
                  cases u with
                  | str s0 => simp [getV, h] at hg
                  | num n0 => simp [getV, h] at hg
                  | obj o2 => simp [getV, h] at hg
                  | arr xs =>
                      cases h2 : xs[i]? with
                      | none => simp [getV, h, h2] at hg
                      | some u0 =>
                          simp only [getV, h, h2] at hg
                          obtain ⟨u', hu1, hu2⟩ := ih u0 w w' hg hf
                          refine ⟨.obj (setKey o key (.arr (xs.set i u'))), ?_, ?_⟩
                          · simp [modifyV, h, h2, hu1]
                          · simp [getV, lookupKey_setKey_self,
                              getElem?_set_self xs i u0 u' h2, hu2]

theorem modifyV_append (f : JValue → Option JValue) (q : JPath) (p : JPath) :
    ∀ v : JValue, modifyV f v (p ++ q) = modifyV (fun w => modifyV f w q) v p := by
  induction p with
  | nil => intro v; simp [modifyV]
  | cons s p' ih =>
      intro v
      obtain ⟨key, idx⟩ := s
      cases v with
      | str s0 => cases idx <;> simp [modifyV]
      | num n0 => cases idx <;> simp [modifyV]
      | arr xs => cases idx <;> simp [modifyV]
      | obj o =>
          cases idx with
          | none =>
              cases h : lookupKey o key with
              | none => simp [modifyV, h]
              | some u => simp [modifyV, h, ih]
          | some i =>
              cases h : lookupKey o key with
              | none => simp [modifyV, h]
              | some u =>
                  cases u with
                  | str s0 => simp [modifyV, h]
                  | num n0 => simp [modifyV, h]
                  | obj o2 => simp [modifyV, h]
                  | arr xs =>
                      cases h2 : xs[i]? with
                      | none => simp [modifyV, h, h2]
                      | some u0 => simp [modifyV, h, h2, ih]

theorem modifyV_modifyV (a : JValue) (p : JPath) :
    ∀ (v va : JValue) (g : JValue → Option JValue),
    modifyV (fun _ => some a) v p = some va →
    modifyV g va p = modifyV (fun _ => g a) v p := by
  induction p with
  | nil =>
      intro v va g h
      simp [modifyV] at h
      subst h
      simp [modifyV]
  | cons s p' ih =>
      intro v va g h
      obtain ⟨key, idx⟩ := s
      cases v with
      | str s0 => cases idx <;> simp [modifyV] at h
      | num n0 => cases idx <;> simp [modifyV] at h
      | arr xs => cases idx <;> simp [modifyV] at h
      | obj o =>
          cases idx with
          | none =>
              cases hlk : lookupKey o key with
              | none => simp [modifyV, hlk] at h
              | some w =>
                  simp only [modifyV, hlk] at h
                  cases hm : modifyV (fun _ => some a) w p' with
                  | none => rw [hm] at h; simp at h
                  | some wa =>
                      rw [hm] at h
                      simp only [Option.map_some', Option.some.injEq] at h
                      subst h
                      simp [modifyV, lookupKey_setKey_self, hlk,
                        ih w wa g hm, setKey_setKey]
          | some i =>
              cases hlk : lookupKey o key with
              | none => simp [modifyV, hlk] at h
              | some u =>
                  cases u with
                  | str s0 => simp [modifyV, hlk] at h
                  | num n0 => simp [modifyV, hlk] at h
                  | obj o2 => simp [modifyV, hlk] at h
                  | arr xs =>
                      cases h2 : xs[i]? with
                      | none => simp [modifyV, hlk, h2] at h
                      | some w =>
                          simp only [modifyV, hlk, h2] at h
                          cases hm : modifyV (fun _ => some a) w p' with
                          | none => rw [hm] at h; simp at h
                          | some wa =>
                              rw [hm] at h
                              simp only [Option.map_some', Option.some.injEq] at h
                              subst h
                              simp [modifyV, lookupKey_setKey_self,
                                getElem?_set_self xs i w wa h2, hlk, h2,
                                ih w wa g hm, setKey_setKey, List.set_set]

theorem set_getElem_self {α : Type} (xs : List α) (i : Nat) (u : α)
    (h : xs[i]? = some u) : xs.set i u = xs := by
  induction xs generalizing i with
  | nil => simp at h
  | cons x rest ih =>
      cases i with
      | zero => simp at h; simp [List.set, h]
      | succ j =>
          simp only [List.getElem?_cons_succ] at h
          simp [List.set, ih j h]

theorem modifyV_set_self (p : JPath) : ∀ (v w : JValue), getV v p = some w →
    modifyV (fun _ => some w) v p = some v := by
  induction p with
  | nil =>
      intro v w hg
      simp [getV] at hg
      simp [modifyV, hg]
  | cons s p' ih =>
      intro v w hg
      obtain ⟨key, idx⟩ := s
      cases v with
      | str s0 => cases idx <;> simp [getV] at hg
      | num n0 => cases idx <;> simp [getV] at hg
      | arr xs => cases idx <;> simp [getV] at hg
      | obj o =>
          cases idx with
          | none =>
              cases h : lookupKey o key with
              | none => simp [getV, h] at hg
              | some u =>
                  simp only [getV, h] at hg
                  simp [modifyV, h, ih u w hg, setKey_self_of_lookup o key u h]
          | some i =>
              cases h : lookupKey o key with
              | none => simp [getV, h] at hg
              | some u =>
                  cases u with
                  | str s0 => simp [getV, h] at hg
                  | num n0 => simp [getV, h] at hg
                  | obj o2 => simp [getV, h] at hg
                  | arr xs =>
                      cases h2 : xs[i]? with
                      | none => simp [getV, h, h2] at hg
                      | some u0 =>
                          simp only [getV, h, h2] at hg
                          simp [modifyV, h, h2, ih u0 w hg,
                            set_getElem_self xs i u0 h2,
                            setKey_self_of_lookup o key _ h]

theorem modifyV_eq_set (f : JValue → Option JValue) (p : JPath) :
    ∀ (v w w' : JValue), getV v p = some w → f w = some w' →
    modifyV f v p = modifyV (fun _ => some w') v p := by
  induction p with
  | nil =>
      intro v w w' hg hf
      simp [getV] at hg
      subst hg
      simp [modifyV, hf]
  | cons s p' ih =>
      intro v w w' hg hf
      obtain ⟨key, idx⟩ := s
      cases v with
      | str s0 => cases idx <;> simp [getV] at hg
      | num n0 => cases idx <;> simp [getV] at hg
      | arr xs => cases idx <;> simp [getV] at hg
      | obj o =>
          cases idx with
          | none =>
              cases h : lookupKey o key with
              | none => simp [getV, h] at hg
              | some u =>
                  simp only [getV, h] at hg
                  simp [modifyV, h, ih u w w' hg hf]
          | some i =>
              cases h : lookupKey o key with
              | none => simp [getV, h] at hg
              | some u =>
                  cases u with
                  | str s0 => simp [getV, h] at hg
                  | num n0 => simp [getV, h] at hg
                  | obj o2 => simp [getV, h] at hg
                  | arr xs =>
                      cases h2 : xs[i]? with
                      | none => simp [getV, h, h2] at hg
                      | some u0 =>
                          simp only [getV, h, h2] at hg
                          simp [modifyV, h, h2, ih u0 w w' hg hf]

theorem modifyV_obj_shape (f : JValue → Option JValue) (p : JPath) (hp : p ≠ [])
    (o : JObj) (v' : JValue) (h : modifyV f (.obj o) p = some v') :
    ∃ o', v' = .obj o' ∧ o' ≠ [] := by
  cases p with
  | nil => exact absurd rfl hp
  | cons s p' =>
      obtain ⟨key, idx⟩ := s
      cases idx with
      | none =>
          cases hlk : lookupKey o key with
          | none => simp [modifyV, hlk] at h
          | some u =>
              simp only [modifyV, hlk] at h
              cases hm : modifyV f u p' with
              | none => rw [hm] at h; simp at h
              | some w' =>
                  rw [hm] at h
                  simp only [Option.map_some', Option.some.injEq] at h
                  exact ⟨setKey o key w', h.symm, setKey_ne_nil o key w'⟩
      | some i =>
          cases hlk : lookupKey o key with
          | none => simp [modifyV, hlk] at h
          | some u =>
              cases u with
              | str s0 => simp [modifyV, hlk] at h
              | num n0 => simp [modifyV, hlk] at h
              | obj o2 => simp [modifyV, hlk] at h
              | arr xs =>
                  cases h2 : xs[i]? with
                  | none => simp [modifyV, hlk, h2] at h
                  | some u0 =>
                      simp only [modifyV, hlk, h2] at h
                      cases hm : modifyV f u0 p' with
                      | none => rw [hm] at h; simp at h
                      | some w' =>
                          rw [hm] at h
                          simp only [Option.map_some', Option.some.injEq] at h
                          exact ⟨setKey o key (.arr (xs.set i w')), h.symm,
                            setKey_ne_nil o key _⟩

theorem modifyO_sound (f : JValue → Option JValue) (root : JObj) (p : JPath)
    (w w' : JValue) (hp : p ≠ []) (hg : getO root p = some w) (hf : f w = some w') :
    ∃ root', modifyO f root p = some root' ∧ getO root' p = some w' ∧ root' ≠ [] ∧
      setO root p w' = some root' := by
  obtain ⟨v', h1, h2⟩ := modifyV_sound f p (.obj root) w w' hg hf
  obtain ⟨o', rfl, hne⟩ := modifyV_obj_shape f p hp root v' h1
  refine ⟨o', by simp [modifyO, h1], h2, hne, ?_⟩
  have h3 : modifyV f (.obj root) p = modifyV (fun _ => some w') (.obj root) p :=
    modifyV_eq_set f p (.obj root) w w' hg hf
  simp [setO, modifyO, ← h3, h1]

theorem setO_sound (root : JObj) (p : JPath) (w v : JValue) (hp : p ≠ [])
    (hg : getO root p = some w) :
    ∃ root', setO root p v = some root' ∧ getO root' p = some v ∧ root' ≠ [] := by
  obtain ⟨root', h1, h2, h3, _⟩ :=
    modifyO_sound (fun _ => some v) root p w v hp hg rfl
  exact ⟨root', h1, h2, h3⟩

theorem setO_self (root : JObj) (p : JPath) (w : JValue) (hg : getO root p = some w) :
    setO root p w = some root := by
  simp [setO, modifyO, modifyV_set_self p (.obj root) w hg]

theorem modifyO_after_setO (a : JValue) (root root₁ : JObj) (p : JPath)
    (g : JValue → Option JValue) (h : setO root p a = some root₁) :
    modifyO g root₁ p = modifyO (fun _ => g a) root p := by
  simp only [setO, modifyO] at h
  cases hm : modifyV (fun _ => some a) (.obj root) p with
  | none => rw [hm] at h; simp at h
  | some v' =>
      rw [hm] at h
      cases v' with
      | obj o' =>
          simp only [Option.some.injEq] at h
          subst h
          simp only [modifyO, modifyV_modifyV a p (.obj root) (.obj o') g hm]
      | str s0 => simp at h
      | num n0 => simp at h
      | arr xs => simp at h

theorem setO_after_setO (a b : JValue) (root root₁ : JObj) (p : JPath)
    (h : setO root p a = some root₁) : setO root₁ p b = setO root p b :=
  modifyO_after_setO a root root₁ p (fun _ => some b) h

theorem modifyO_append (f : JValue → Option JValue) (root : JObj) (p q : JPath) :
    modifyO f root (p ++ q) = modifyO (fun w => modifyV f w q) root p := by
  simp only [modifyO, modifyV_append f q p (.obj root)]

theorem runEvents_append (l₁ l₂ : List Event) : ∀ st : PState,
    runEvents st (l₁ ++ l₂) =
      match runEvents st l₁ with
      | some st' => runEvents st' l₂
      | none => none := by
  induction l₁ with
  | nil => intro st; simp [runEvents]
  | cons e l ih =>
      intro st
      cases h : step e st with
      | none => simp [runEvents, h]
      | some st' => simp [runEvents, h, ih]

theorem runEvents_chunks (cks : List String) : ∀ (root : JObj) (S : List JPath)
    (c0 : String), runEvents ⟨root, S, c0⟩ (cks.map .cdata) =
      some ⟨root, S, List.foldl (fun a c => a ++ c) c0 cks⟩ := by
  induction cks with
  | nil => intro root S c0; simp [runEvents]
  | cons c cks ih =>
      intro root S c0
      simp [runEvents, step, oncdata, ih]

theorem newElement_eq (n : String) (a : Attrs) :
    newElement n a = .obj (initElement n a) := rfl

theorem getV_key (o : JObj) (n : String) : getV (.obj o) [(n, none)] = lookupKey o n := by
  cases h : lookupKey o n <;> simp [getV, h]

theorem getO_child (root : JObj) (p : JPath) (parent₁ : JObj)
    (s : String × Option Nat) (w : JValue)
    (hg : getO root p = some (.obj parent₁)) (hs : getV (.obj parent₁) [s] = some w) :
    getO root (p ++ [s]) = some w := by
  simp only [getO] at hg ⊢
  rw [getV_append p [s] (.obj root), hg]
  simpa using hs

theorem length_ne_zero_of_ne_nil {α : Type} {l : List α} (h : l ≠ []) :
    l.length ≠ 0 := by
  simpa [List.length_eq_zero] using h

/-- What one open-tag event does when the tag is new under the parent. -/
theorem onopentag_fresh (n : String) (a : Attrs) (root : JObj) (stk : List JPath)
    (p : JPath) (cd : String) (parent : JObj) (hp : p ≠ []) (hr : root ≠ [])
    (hg : getO root p = some (.obj parent)) (hlk : lookupKey parent n = none) :
    ∃ root₁, onopentag n a ⟨root, stk ++ [p], cd⟩ = some
        ⟨root₁, (stk ++ [p]) ++ [p ++ [(n, none)]], cd⟩ ∧
      setO root p (.obj (setKey parent n (newElement n a))) = some root₁ ∧
      getO root₁ p = some (.obj (setKey parent n (newElement n a))) ∧ root₁ ≠ [] := by
  obtain ⟨root₁, h1, h2, h3⟩ := setO_sound root p (.obj parent)
    (.obj (setKey parent n (newElement n a))) hp hg
  refine ⟨root₁, ?_, h1, h2, h3⟩
  simp [onopentag, length_ne_zero_of_ne_nil hr, popLast_concat, hg, hlk, h1]

/-- What one open-tag event does when the parent already holds an array
under the tag. -/
theorem onopentag_push (n : String) (a : Attrs) (root : JObj) (stk : List JPath)
    (p : JPath) (cd : String) (parent : JObj) (xs : List JValue)
    (hp : p ≠ []) (hr : root ≠ [])
    (hg : getO root p = some (.obj parent)) (hlk : lookupKey parent n = some (.arr xs)) :
    ∃ root₁, onopentag n a ⟨root, stk ++ [p], cd⟩ = some
        ⟨root₁, (stk ++ [p]) ++ [p ++ [(n, some xs.length)]], cd⟩ ∧
      setO root p (.obj (setKey parent n (.arr (xs ++ [newElement n a])))) = some root₁ ∧
      getO root₁ p = some (.obj (setKey parent n (.arr (xs ++ [newElement n a])))) ∧
      root₁ ≠ [] := by
  obtain ⟨root₁, h1, h2, h3⟩ := setO_sound root p (.obj parent)
    (.obj (setKey parent n (.arr (xs ++ [newElement n a])))) hp hg
  refine ⟨root₁, ?_, h1, h2, h3⟩
  simp [onopentag, length_ne_zero_of_ne_nil hr, popLast_concat, hg, hlk, h1]

/-- What one open-tag event does when the parent holds a single (non-array)
value under the tag: promotion to a two-element array. -/
theorem onopentag_promote (n : String) (a : Attrs) (root : JObj) (stk : List JPath)
    (p : JPath) (cd : String) (parent : JObj) (v : JValue)
    (hp : p ≠ []) (hr : root ≠ [])
    (hg : getO root p = some (.obj parent)) (hlk : lookupKey parent n = some v)
    (hv : ∀ ys, v ≠ .arr ys) :
    ∃ root₁, onopentag n a ⟨root, stk ++ [p], cd⟩ = some
        ⟨root₁, (stk ++ [p]) ++ [p ++ [(n, some 1)]], cd⟩ ∧
      setO root p (.obj (setKey (delKey parent n) n
        (.arr [v, newElement n a]))) = some root₁ ∧
      getO root₁ p = some (.obj (setKey (delKey parent n) n
        (.arr [v, newElement n a]))) ∧ root₁ ≠ [] := by
  obtain ⟨root₁, h1, h2, h3⟩ := setO_sound root p (.obj parent)
    (.obj (setKey (delKey parent n) n (.arr [v, newElement n a]))) hp hg
  refine ⟨root₁, ?_, h1, h2, h3⟩
  cases v with
  | arr ys => exact absurd rfl (hv ys)
  | str s0 => simp [onopentag, length_ne_zero_of_ne_nil hr, popLast_concat, hg, hlk, h1]
  | num n0 => simp [onopentag, length_ne_zero_of_ne_nil hr, popLast_concat, hg, hlk, h1]
  | obj o0 => simp [onopentag, length_ne_zero_of_ne_nil hr, popLast_concat, hg, hlk, h1]

/-- What writing innerText through the stack top does (shared by ontext
and onclosecdata). -/
theorem modifyO_innerText (txt : String) (root : JObj) (p : JPath) (parent : JObj)
    (hp : p ≠ []) (hg : getO root p = some (.obj parent)) :
    ∃ root₁, modifyO (setInnerText txt) root p = some root₁ ∧
      setO root p (.obj (setKey parent "innerText" (.str txt))) = some root₁ ∧
      getO root₁ p = some (.obj (setKey parent "innerText" (.str txt))) ∧
      root₁ ≠ [] := by
  obtain ⟨root₁, h1, h2, h3, h4⟩ := modifyO_sound (setInnerText txt) root p
    (.obj parent) (.obj (setKey parent "innerText" (.str txt))) hp hg rfl
  exact ⟨root₁, h1, h4, h2, h3⟩

theorem modifyV_const_none (p : JPath) : ∀ v : JValue,
    modifyV (fun _ => (none : Option JValue)) v p = none := by
  induction p with
  | nil => intro v; simp [modifyV]
  | cons s p' ih =>
      intro v
      obtain ⟨key, idx⟩ := s
      cases v with
      | str s0 => cases idx <;> simp [modifyV]
      | num n0 => cases idx <;> simp [modifyV]
      | arr xs => cases idx <;> simp [modifyV]
      | obj o =>
          cases idx with
          | none =>
              cases h : lookupKey o key with
              | none => simp [modifyV, h]
              | some u => simp [modifyV, h, ih]
          | some i =>
              cases h : lookupKey o key with
              | none => simp [modifyV, h]
              | some u =>
                  cases u with
                  | str s0 => simp [modifyV, h]
                  | num n0 => simp [modifyV, h]
                  | obj o2 => simp [modifyV, h]
                  | arr xs =>
                      cases h2 : xs[i]? with
                      | none => simp [modifyV, h, h2]
                      | some u0 => simp [modifyV, h, h2, ih]

/-- The inductive statement of the builder equivalence: from a state whose
stack top refers to `parent`, consuming the events of a content list `items`
rewrites the referenced node to `buildItems parent items`, restores the
stack, and ends with some accumulator value. -/
abbrev RunItemsGoal (items : Items) : Prop :=
  ∀ (root : JObj) (stk : List JPath) (p : JPath) (cd : String) (parent : JObj),
    p ≠ [] → root ≠ [] → getO root p = some (.obj parent) →
    ∃ root' cd', setO root p (.obj (buildItems parent items)) = some root' ∧
      runEvents ⟨root, stk ++ [p], cd⟩ (itemsEvents items) =
        some ⟨root', stk ++ [p], cd'⟩

/-- Common part of the element case: after the open-tag event installed the
fresh node at child step `s` inside `parent₁`, consuming the child content
and the close-tag completes the child in place and restores the stack. -/
theorem runElemCommon (n : String) (a : Attrs) (cs : Items)
    (ihcs : RunItemsGoal cs)
    (root root₁ : JObj) (stk : List JPath) (p : JPath) (cd : String)
    (parent0 parent₁ : JObj) (s : String × Option Nat)
    (hp : p ≠ []) (hne₁ : root₁ ≠ [])
    (hg0 : getO root p = some (.obj parent0))
    (hset₁ : setO root p (.obj parent₁) = some root₁)
    (hg₁ : getO root₁ p = some (.obj parent₁))
    (hchild : getV (.obj parent₁) [s] = some (newElement n a)) :
    ∃ parent₂ root₂ cd₂,
      modifyV (fun _ => some (.obj (buildItems (initElement n a) cs)))
        (.obj parent₁) [s] = some (.obj parent₂) ∧
      setO root p (.obj parent₂) = some root₂ ∧
      getO root₂ p = some (.obj parent₂) ∧ root₂ ≠ [] ∧
      runEvents ⟨root₁, (stk ++ [p]) ++ [p ++ [s]], cd⟩
        (itemsEvents cs ++ [Event.closetag]) = some ⟨root₂, stk ++ [p], cd₂⟩ := by
  have hq : getO root₁ (p ++ [s]) = some (.obj (initElement n a)) := by
    have := getO_child root₁ p parent₁ s (newElement n a) hg₁ hchild
    rwa [newElement_eq] at this
  obtain ⟨root₂, cd₂, hsetB, hrunB⟩ :=
    ihcs root₁ (stk ++ [p]) (p ++ [s]) cd (initElement n a)
      (by simp) hne₁ hq
  have hcomp : setO root₁ (p ++ [s]) (.obj (buildItems (initElement n a) cs)) =
      modifyO (fun _ => modifyV
          (fun _ => some (.obj (buildItems (initElement n a) cs)))
          (.obj parent₁) [s]) root p := by
    rw [setO, modifyO_append]
    exact modifyO_after_setO (.obj parent₁) root root₁ p _ hset₁
  rw [hcomp] at hsetB
  cases hM : modifyV (fun _ => some (.obj (buildItems (initElement n a) cs)))
      (.obj parent₁) [s] with
  | none =>
      rw [hM] at hsetB
      rw [show (fun (_ : JValue) => (none : Option JValue)) =
        fun _ => (none : Option JValue) from rfl] at hsetB
      simp [modifyO, modifyV_const_none] at hsetB
  | some vP =>
      rw [hM] at hsetB
      obtain ⟨parent₂, rfl, _⟩ := modifyV_obj_shape _ [s] (by simp) parent₁ vP hM
      obtain ⟨r', hs', hgr', hner'⟩ :=
        setO_sound root p (.obj parent0) (.obj parent₂) hp hg0
      have hr2 : r' = root₂ := Option.some.inj (hs'.symm.trans hsetB)
      subst hr2
      refine ⟨parent₂, r', cd₂, rfl, hs', hgr', hner', ?_⟩
      rw [runEvents_append, hrunB]
      show runEvents ⟨r', (stk ++ [p]) ++ [p ++ [s]], cd₂⟩ [Event.closetag] =
        some ⟨r', stk ++ [p], cd₂⟩
      have hstepc : step Event.closetag ⟨r', (stk ++ [p]) ++ [p ++ [s]], cd₂⟩ =
          some ⟨r', stk ++ [p], cd₂⟩ := by
        simp only [step, onclosetag, List.dropLast_concat]
      rw [runEvents, hstepc]
      rfl

theorem runEvents_cons_of_step (e : Event) (st st' : PState) (evs : List Event)
    (h : step e st = some st') : runEvents st (e :: evs) = runEvents st' evs := by
  rw [runEvents, h]

theorem runEvents_append_of (l₁ l₂ : List Event) (st st₁ : PState)
    (h : runEvents st l₁ = some st₁) :
    runEvents st (l₁ ++ l₂) = runEvents st₁ l₂ := by
  rw [runEvents_append, h]

/-- The builder equivalence: consuming the events of a content list from a
state whose stack top references `parent` rewrites that node to
`buildItems parent items` and restores the stack.  Induction follows the
event order of the source's callbacks. -/
theorem runItemsEvents (items : Items) : RunItemsGoal items := by
  match items with
  | .nil =>
      intro root stk p cd parent hp hr hg
      refine ⟨root, cd, ?_, ?_⟩
      · rw [show buildItems parent Items.nil = parent from by simp [buildItems]]
        exact setO_self root p _ hg
      · simp [itemsEvents, runEvents]
  | .cons (.txt s) rest =>
      intro root stk p cd parent hp hr hg
      obtain ⟨root₁, hm, hset₁, hg₁, hne₁⟩ := modifyO_innerText s root p parent hp hg
      obtain ⟨root', cd', hset', hrun'⟩ := runItemsEvents rest root₁ stk p cd
        (setKey parent "innerText" (.str s)) hp hne₁ hg₁
      refine ⟨root', cd', ?_, ?_⟩
      · rw [show buildItems parent (Items.cons (.txt s) rest)
            = buildItems (setKey parent "innerText" (.str s)) rest from by
          simp [buildItems, buildItem]]
        rw [← setO_after_setO _ _ root root₁ p hset₁]
        exact hset'
      · rw [show itemsEvents (Items.cons (.txt s) rest)
            = Event.text s :: itemsEvents rest from by simp [itemsEvents, itemEvents]]
        have hstep : step (Event.text s) ⟨root, stk ++ [p], cd⟩ =
            some ⟨root₁, stk ++ [p], cd⟩ := by
          simp [step, ontext, popLast_concat, hm]
        rw [runEvents_cons_of_step _ _ _ _ hstep]
        exact hrun'
  | .cons (.cdataSec cks) rest =>
      intro root stk p cd parent hp hr hg
      obtain ⟨root₁, hm, hset₁, hg₁, hne₁⟩ :=
        modifyO_innerText (joinChunks cks) root p parent hp hg
      obtain ⟨root', cd', hset', hrun'⟩ := runItemsEvents rest root₁ stk p ""
        (setKey parent "innerText" (.str (joinChunks cks))) hp hne₁ hg₁
      refine ⟨root', cd', ?_, ?_⟩
      · rw [show buildItems parent (Items.cons (.cdataSec cks) rest)
            = buildItems (setKey parent "innerText"
                (.str (joinChunks cks))) rest from by
          simp [buildItems, buildItem]]
        rw [← setO_after_setO _ _ root root₁ p hset₁]
        exact hset'
      · rw [show itemsEvents (Items.cons (.cdataSec cks) rest)
            = Event.opencdata :: ((cks.map .cdata ++ [Event.closecdata])
                ++ itemsEvents rest) from by simp [itemsEvents, itemEvents]]
        have hstep0 : step Event.opencdata ⟨root, stk ++ [p], cd⟩ =
            some ⟨root, stk ++ [p], ""⟩ := by
          simp [step, onopencdata]
        rw [runEvents_cons_of_step _ _ _ _ hstep0, List.append_assoc]
        rw [runEvents_append_of _ _ _ _ (runEvents_chunks cks root (stk ++ [p]) "")]
        have hstep1 : step Event.closecdata
            ⟨root, stk ++ [p], List.foldl (fun a c => a ++ c) "" cks⟩ =
            some ⟨root₁, stk ++ [p], ""⟩ := by
          simp only [joinChunks] at hm
          simp [step, onclosecdata, popLast_concat, hm]
        rw [List.singleton_append, runEvents_cons_of_step _ _ _ _ hstep1]
        exact hrun'
  | .cons (.elem n a cs) rest =>
      intro root stk p cd parent hp hr hg
      cases hlk : lookupKey parent n with
      | none =>
          obtain ⟨root₁, hopen, hset₁, hg₁, hne₁⟩ :=
            onopentag_fresh n a root stk p cd parent hp hr hg hlk
          have hchild : getV (.obj (setKey parent n (newElement n a)))
              [(n, none)] = some (newElement n a) := by
            rw [getV_key]
            exact lookupKey_setKey_self parent n (newElement n a)
          obtain ⟨parent₂, root₂, cd₂, hmod, hset₂, hg₂, hne₂, hrun₂⟩ :=
            runElemCommon n a cs (runItemsEvents cs) root root₁ stk p cd
              parent (setKey parent n (newElement n a)) (n, none)
              hp hne₁ hg hset₁ hg₁ hchild
          have hpar₂ : parent₂ = attach parent n
              (.obj (buildItems (initElement n a) cs)) := by
            rw [show modifyV (fun _ => some
                  (.obj (buildItems (initElement n a) cs)))
                (.obj (setKey parent n (newElement n a))) [(n, none)]
                = some (.obj (setKey (setKey parent n (newElement n a)) n
                  (.obj (buildItems (initElement n a) cs)))) from by
              simp [modifyV, lookupKey_setKey_self]] at hmod
            have h2 := (JValue.obj.injEq _ _).mp (Option.some.inj hmod)
            rw [← h2, setKey_setKey]
            simp [attach, hlk]
          subst hpar₂
          obtain ⟨root', cd', hset₃, hrun₃⟩ :=
            runItemsEvents rest root₂ stk p cd₂ _ hp hne₂ hg₂
          refine ⟨root', cd', ?_, ?_⟩
          · rw [show buildItems parent (Items.cons (.elem n a cs) rest)
                = buildItems (attach parent n
                    (.obj (buildItems (initElement n a) cs))) rest from by
              simp [buildItems, buildItem]]
            rw [← setO_after_setO _ _ root root₂ p hset₂]
            exact hset₃
          · rw [show itemsEvents (Items.cons (.elem n a cs) rest)
                = Event.openTag n a :: ((itemsEvents cs ++ [Event.closetag])
                    ++ itemsEvents rest) from by simp [itemsEvents, itemEvents]]
            have hstepO : step (Event.openTag n a) ⟨root, stk ++ [p], cd⟩ =
                some ⟨root₁, (stk ++ [p]) ++ [p ++ [(n, none)]], cd⟩ := by
              simpa [step] using hopen
            rw [runEvents_cons_of_step _ _ _ _ hstepO]
            rw [runEvents_append_of _ _ _ _ hrun₂]
            exact hrun₃
      | some v =>
          cases hva : v with
          | arr xs =>
              obtain ⟨root₁, hopen, hset₁, hg₁, hne₁⟩ :=
                onopentag_push n a root stk p cd parent xs hp hr hg (hva ▸ hlk)
              have hchild : getV (.obj (setKey parent n
                  (.arr (xs ++ [newElement n a])))) [(n, some xs.length)]
                  = some (newElement n a) := by
                simp [getV, lookupKey_setKey_self, getElem?_concat_self, newElement]
              obtain ⟨parent₂, root₂, cd₂, hmod, hset₂, hg₂, hne₂, hrun₂⟩ :=
                runElemCommon n a cs (runItemsEvents cs) root root₁ stk p cd
                  parent (setKey parent n (.arr (xs ++ [newElement n a])))
                  (n, some xs.length) hp hne₁ hg hset₁ hg₁ hchild
              have hpar₂ : parent₂ = attach parent n
                  (.obj (buildItems (initElement n a) cs)) := by
                rw [show modifyV (fun _ => some
                      (.obj (buildItems (initElement n a) cs)))
                    (.obj (setKey parent n (.arr (xs ++ [newElement n a]))))
                    [(n, some xs.length)]
                    = some (.obj (setKey (setKey parent n
                        (.arr (xs ++ [newElement n a]))) n
                      (.arr ((xs ++ [newElement n a]).set xs.length
                        (.obj (buildItems (initElement n a) cs)))))) from by
                  simp [modifyV, lookupKey_setKey_self, getElem?_concat_self]] at hmod
                have h2 := (JValue.obj.injEq _ _).mp (Option.some.inj hmod)
                rw [← h2, setKey_setKey, set_concat_self]
                simp [attach, hva ▸ hlk]
              subst hpar₂
              obtain ⟨root', cd', hset₃, hrun₃⟩ :=
                runItemsEvents rest root₂ stk p cd₂ _ hp hne₂ hg₂
              refine ⟨root', cd', ?_, ?_⟩
              · rw [show buildItems parent (Items.cons (.elem n a cs) rest)
                    = buildItems (attach parent n
                        (.obj (buildItems (initElement n a) cs))) rest from by
                  simp [buildItems, buildItem]]
                rw [← setO_after_setO _ _ root root₂ p hset₂]
                exact hset₃
              · rw [show itemsEvents (Items.cons (.elem n a cs) rest)
                    = Event.openTag n a :: ((itemsEvents cs ++ [Event.closetag])
                        ++ itemsEvents rest) from by
                  simp [itemsEvents, itemEvents]]
                have hstepO : step (Event.openTag n a) ⟨root, stk ++ [p], cd⟩ =
                    some ⟨root₁, (stk ++ [p]) ++ [p ++ [(n, some xs.length)]], cd⟩ := by
                  simpa [step] using hopen
                rw [runEvents_cons_of_step _ _ _ _ hstepO]
                rw [runEvents_append_of _ _ _ _ hrun₂]
                exact hrun₃
          | str s0 =>
              obtain ⟨root₁, hopen, hset₁, hg₁, hne₁⟩ :=
                onopentag_promote n a root stk p cd parent (.str s0) hp hr hg
                  (hva ▸ hlk) (by intro ys h; cases h)
              have hchild : getV (.obj (setKey (delKey parent n) n
                  (.arr [.str s0, newElement n a]))) [(n, some 1)]
                  = some (newElement n a) := by
                simp [getV, lookupKey_setKey_self, newElement]
              obtain ⟨parent₂, root₂, cd₂, hmod, hset₂, hg₂, hne₂, hrun₂⟩ :=
                runElemCommon n a cs (runItemsEvents cs) root root₁ stk p cd
                  parent (setKey (delKey parent n) n
                    (.arr [.str s0, newElement n a])) (n, some 1)
                  hp hne₁ hg hset₁ hg₁ hchild
              have hpar₂ : parent₂ = attach parent n
                  (.obj (buildItems (initElement n a) cs)) := by
                rw [show modifyV (fun _ => some
                      (.obj (buildItems (initElement n a) cs)))
                    (.obj (setKey (delKey parent n) n
                      (.arr [.str s0, newElement n a]))) [(n, some 1)]
                    = some (.obj (setKey (setKey (delKey parent n) n
                        (.arr [.str s0, newElement n a])) n
                      (.arr [.str s0,
                        .obj (buildItems (initElement n a) cs)]))) from by
                  simp [modifyV, lookupKey_setKey_self, List.set]] at hmod
                have h2 := (JValue.obj.injEq _ _).mp (Option.some.inj hmod)
                rw [← h2, setKey_setKey]
                simp [attach, hva ▸ hlk]
              subst hpar₂
              obtain ⟨root', cd', hset₃, hrun₃⟩ :=
                runItemsEvents rest root₂ stk p cd₂ _ hp hne₂ hg₂
              refine ⟨root', cd', ?_, ?_⟩
              · rw [show buildItems parent (Items.cons (.elem n a cs) rest)
                    = buildItems (attach parent n
                        (.obj (buildItems (initElement n a) cs))) rest from by
                  simp [buildItems, buildItem]]
                rw [← setO_after_setO _ _ root root₂ p hset₂]
                exact hset₃
              · rw [show itemsEvents (Items.cons (.elem n a cs) rest)
                    = Event.openTag n a :: ((itemsEvents cs ++ [Event.closetag])
                        ++ itemsEvents rest) from by
                  simp [itemsEvents, itemEvents]]
                have hstepO : step (Event.openTag n a) ⟨root, stk ++ [p], cd⟩ =
                    some ⟨root₁, (stk ++ [p]) ++ [p ++ [(n, some 1)]], cd⟩ := by
                  simpa [step] using hopen
                rw [runEvents_cons_of_step _ _ _ _ hstepO]
                rw [runEvents_append_of _ _ _ _ hrun₂]
                exact hrun₃
          | num n0 =>
              obtain ⟨root₁, hopen, hset₁, hg₁, hne₁⟩ :=
                onopentag_promote n a root stk p cd parent (.num n0) hp hr hg
                  (hva ▸ hlk) (by intro ys h; cases h)
              have hchild : getV (.obj (setKey (delKey parent n) n
                  (.arr [.num n0, newElement n a]))) [(n, some 1)]
                  = some (newElement n a) := by
                simp [getV, lookupKey_setKey_self, newElement]
              obtain ⟨parent₂, root₂, cd₂, hmod, hset₂, hg₂, hne₂, hrun₂⟩ :=
                runElemCommon n a cs (runItemsEvents cs) root root₁ stk p cd
                  parent (setKey (delKey parent n) n
                    (.arr [.num n0, newElement n a])) (n, some 1)
                  hp hne₁ hg hset₁ hg₁ hchild
              have hpar₂ : parent₂ = attach parent n
                  (.obj (buildItems (initElement n a) cs)) := by
                rw [show modifyV (fun _ => some
                      (.obj (buildItems (initElement n a) cs)))
                    (.obj (setKey (delKey parent n) n
                      (.arr [.num n0, newElement n a]))) [(n, some 1)]
                    = some (.obj (setKey (setKey (delKey parent n) n
                        (.arr [.num n0, newElement n a])) n
                      (.arr [.num n0,
                        .obj (buildItems (initElement n a) cs)]))) from by
                  simp [modifyV, lookupKey_setKey_self, List.set]] at hmod
                have h2 := (JValue.obj.injEq _ _).mp (Option.some.inj hmod)
                rw [← h2, setKey_setKey]
                simp [attach, hva ▸ hlk]
              subst hpar₂
              obtain ⟨root', cd', hset₃, hrun₃⟩ :=
                runItemsEvents rest root₂ stk p cd₂ _ hp hne₂ hg₂
              refine ⟨root', cd', ?_, ?_⟩
              · rw [show buildItems parent (Items.cons (.elem n a cs) rest)
                    = buildItems (attach parent n
                        (.obj (buildItems (initElement n a) cs))) rest from by
                  simp [buildItems, buildItem]]
                rw [← setO_after_setO _ _ root root₂ p hset₂]
                exact hset₃
              · rw [show itemsEvents (Items.cons (.elem n a cs) rest)
                    = Event.openTag n a :: ((itemsEvents cs ++ [Event.closetag])
                        ++ itemsEvents rest) from by
                  simp [itemsEvents, itemEvents]]
                have hstepO : step (Event.openTag n a) ⟨root, stk ++ [p], cd⟩ =
                    some ⟨root₁, (stk ++ [p]) ++ [p ++ [(n, some 1)]], cd⟩ := by
                  simpa [step] using hopen
                rw [runEvents_cons_of_step _ _ _ _ hstepO]
                rw [runEvents_append_of _ _ _ _ hrun₂]
                exact hrun₃
          | obj o0 =>
              obtain ⟨root₁, hopen, hset₁, hg₁, hne₁⟩ :=
                onopentag_promote n a root stk p cd parent (.obj o0) hp hr hg
                  (hva ▸ hlk) (by intro ys h; cases h)
              have hchild : getV (.obj (setKey (delKey parent n) n
                  (.arr [.obj o0, newElement n a]))) [(n, some 1)]
                  = some (newElement n a) := by
                simp [getV, lookupKey_setKey_self, newElement]
              obtain ⟨parent₂, root₂, cd₂, hmod, hset₂, hg₂, hne₂, hrun₂⟩ :=
                runElemCommon n a cs (runItemsEvents cs) root root₁ stk p cd
                  parent (setKey (delKey parent n) n
                    (.arr [.obj o0, newElement n a])) (n, some 1)
                  hp hne₁ hg hset₁ hg₁ hchild
              have hpar₂ : parent₂ = attach parent n
                  (.obj (buildItems (initElement n a) cs)) := by
                rw [show modifyV (fun _ => some
                      (.obj (buildItems (initElement n a) cs)))
                    (.obj (setKey (delKey parent n) n
                      (.arr [.obj o0, newElement n a]))) [(n, some 1)]
                    = some (.obj (setKey (setKey (delKey parent n) n
                        (.arr [.obj o0, newElement n a])) n
                      (.arr [.obj o0,
                        .obj (buildItems (initElement n a) cs)]))) from by
                  simp [modifyV, lookupKey_setKey_self, List.set]] at hmod
                have h2 := (JValue.obj.injEq _ _).mp (Option.some.inj hmod)
                rw [← h2, setKey_setKey]
                simp [attach, hva ▸ hlk]
              subst hpar₂
              obtain ⟨root', cd', hset₃, hrun₃⟩ :=
                runItemsEvents rest root₂ stk p cd₂ _ hp hne₂ hg₂
              refine ⟨root', cd', ?_, ?_⟩
              · rw [show buildItems parent (Items.cons (.elem n a cs) rest)
                    = buildItems (attach parent n
                        (.obj (buildItems (initElement n a) cs))) rest from by
                  simp [buildItems, buildItem]]
                rw [← setO_after_setO _ _ root root₂ p hset₂]
                exact hset₃
              · rw [show itemsEvents (Items.cons (.elem n a cs) rest)
                    = Event.openTag n a :: ((itemsEvents cs ++ [Event.closetag])
                        ++ itemsEvents rest) from by
                  simp [itemsEvents, itemEvents]]
                have hstepO : step (Event.openTag n a) ⟨root, stk ++ [p], cd⟩ =
                    some ⟨root₁, (stk ++ [p]) ++ [p ++ [(n, some 1)]], cd⟩ := by
                  simpa [step] using hopen
                rw [runEvents_cons_of_step _ _ _ _ hstepO]
                rw [runEvents_append_of _ _ _ _ hrun₂]
                exact hrun₃
termination_by sizeIts items
decreasing_by
  all_goals simp [sizeIts, sizeIt]
  all_goals omega

/-- parse on a whole well-nested document: the root element lands in
`jsonObj` under its tag name, holding exactly the compositional build of
its content. -/
theorem parse_itemEvents (n : String) (a : Attrs) (cs : Items) :
    parse (itemEvents (.elem n a cs)) =
      some [(n, .obj (buildItems (initElement n a) cs))] := by
  have hev : itemEvents (Item.elem n a cs)
      = Event.openTag n a :: (itemsEvents cs ++ [Event.closetag]) := by
    simp [itemEvents]
  have hstep0 : step (Event.openTag n a)
      ⟨[], [], ""⟩ = some ⟨[(n, newElement n a)], [] ++ [[(n, none)]], ""⟩ := by
    simp [step, onopentag, setKey]
  have hg : getO [(n, newElement n a)] [(n, none)]
      = some (.obj (initElement n a)) := by
    simp [getO, getV, lookupKey, newElement_eq]
  obtain ⟨root', cd', hset', hrun'⟩ :=
    runItemsEvents cs [(n, newElement n a)] [] [(n, none)] ""
      (initElement n a) (by simp) (by simp) hg
  have hroot' : root' = [(n, .obj (buildItems (initElement n a) cs))] := by
    have hcomp : setO [(n, newElement n a)] [(n, none)]
        (.obj (buildItems (initElement n a) cs))
        = some [(n, .obj (buildItems (initElement n a) cs))] := by
      simp [setO, modifyO, modifyV, lookupKey, setKey]
    exact (Option.some.inj (hcomp.symm.trans hset')).symm
  have hrunC : runEvents ⟨root', [] ++ [[(n, none)]], cd'⟩ [Event.closetag]
      = some ⟨root', [], cd'⟩ := by
    simp [runEvents, step, onclosetag]
  rw [parse, hev, runEvents_cons_of_step _ _ _ _ hstep0,
    runEvents_append_of _ _ _ _ hrun', hrunC, hroot']
  rfl

theorem lookupKey_attach_ne (parent : JObj) (n t : String) (c : JValue) (h : t ≠ n) :
    lookupKey (attach parent n c) t = lookupKey parent t := by
  cases hlk : lookupKey parent n with
  | none =>
      simp only [attach, hlk]
      exact lookupKey_setKey_ne parent n t c h
  | some v =>
      cases v with
      | arr xs =>
          simp only [attach, hlk]
          exact lookupKey_setKey_ne parent n t _ h
      | str s0 =>
          simp only [attach, hlk]
          rw [lookupKey_setKey_ne _ n t _ h, lookupKey_delKey_ne parent n t h]
      | num n0 =>
          simp only [attach, hlk]
          rw [lookupKey_setKey_ne _ n t _ h, lookupKey_delKey_ne parent n t h]
      | obj o0 =>
          simp only [attach, hlk]
          rw [lookupKey_setKey_ne _ n t _ h, lookupKey_delKey_ne parent n t h]

theorem seqResult_attach (parent : JObj) (t : String) (co : JObj)
    (news : List JValue) :
    seqResult (lookupKey (attach parent t (.obj co)) t) news
      = seqResult (lookupKey parent t) (.obj co :: news) := by
  cases hlk : lookupKey parent t with
  | none =>
      have h1 : lookupKey (attach parent t (.obj co)) t = some (.obj co) := by
        simp [attach, hlk, lookupKey_setKey_self]
      rw [h1]
      cases news with
      | nil => simp [seqResult]
      | cons c cs => simp [seqResult]
  | some v =>
      cases v with
      | arr xs =>
          have h1 : lookupKey (attach parent t (.obj co)) t
              = some (.arr (xs ++ [.obj co])) := by
            simp [attach, hlk, lookupKey_setKey_self]
          rw [h1]
          cases news with
          | nil => simp [seqResult]
          | cons c cs => simp [seqResult]
      | str s0 =>
          have h1 : lookupKey (attach parent t (.obj co)) t
              = some (.arr [.str s0, .obj co]) := by
            simp [attach, hlk, lookupKey_setKey_self]
          rw [h1]
          cases news with
          | nil => simp [seqResult]
          | cons c cs => simp [seqResult]
      | num n0 =>
          have h1 : lookupKey (attach parent t (.obj co)) t
              = some (.arr [.num n0, .obj co]) := by
            simp [attach, hlk, lookupKey_setKey_self]
          rw [h1]
          cases news with
          | nil => simp [seqResult]
          | cons c cs => simp [seqResult]
      | obj o0 =>
          have h1 : lookupKey (attach parent t (.obj co)) t
              = some (.arr [.obj o0, .obj co]) := by
            simp [attach, hlk, lookupKey_setKey_self]
          rw [h1]
          cases news with
          | nil => simp [seqResult]
          | cons c cs => simp [seqResult]

/-- The value finally stored under one key is governed by `seqResult`:
the original value under that key, followed by the element children of
that tag name in document order. -/
theorem lookup_buildItems (t : String) (ht : t ≠ "innerText") (items : Items) :
    ∀ parent : JObj,
    lookupKey (buildItems parent items) t =
      seqResult (lookupKey parent t) ((elemsNamed t items).map builtOf) := by
  match items with
  | .nil =>
      intro parent
      simp [buildItems, elemsNamed, seqResult]
  | .cons (.txt s) rest =>
      intro parent
      rw [show buildItems parent (Items.cons (.txt s) rest)
          = buildItems (setKey parent "innerText" (.str s)) rest from by
        simp [buildItems, buildItem]]
      rw [lookup_buildItems t ht rest (setKey parent "innerText" (.str s))]
      rw [lookupKey_setKey_ne parent "innerText" t _ ht]
      rw [show elemsNamed t (Items.cons (.txt s) rest) = elemsNamed t rest from by
        simp [elemsNamed]]
  | .cons (.cdataSec cks) rest =>
      intro parent
      rw [show buildItems parent (Items.cons (.cdataSec cks) rest)
          = buildItems (setKey parent "innerText" (.str (joinChunks cks))) rest from by
        simp [buildItems, buildItem]]
      rw [lookup_buildItems t ht rest _]
      rw [lookupKey_setKey_ne parent "innerText" t _ ht]
      rw [show elemsNamed t (Items.cons (.cdataSec cks) rest)
          = elemsNamed t rest from by simp [elemsNamed]]
  | .cons (.elem m b cs) rest =>
      intro parent
      rw [show buildItems parent (Items.cons (.elem m b cs) rest)
          = buildItems (attach parent m
              (.obj (buildItems (initElement m b) cs))) rest from by
        simp [buildItems, buildItem]]
      rw [lookup_buildItems t ht rest _]
      by_cases hmt : m = t
      · subst hmt
        rw [seqResult_attach parent m (buildItems (initElement m b) cs) _]
        rw [show elemsNamed m (Items.cons (.elem m b cs) rest)
            = .elem m b cs :: elemsNamed m rest from by simp [elemsNamed]]
        rw [List.map_cons]
        rw [show builtOf (.elem m b cs)
            = .obj (buildItems (initElement m b) cs) from by simp [builtOf]]
      · rw [lookupKey_attach_ne parent m t _ (fun hh => hmt hh.symm)]
        rw [show elemsNamed t (Items.cons (.elem m b cs) rest)
            = elemsNamed t rest from by simp [elemsNamed, hmt]]

/-- C1 counterexample: the claim fails as stated.  For the stream of
`<a><name/><name/></a>` the parent receives exactly two children with the
(case-folded) tag name `name`, yet the finished tree maps `name` to a
three-element array whose first entry is the parent's own name string,
because the child tag collides with the node's `name` field. -/
theorem c1_counterexample :
    parse [.openTag "a" [], .openTag "name" [], .closetag,
           .openTag "name" [], .closetag, .closetag] =
      some [("a", .obj [("attr", .obj []),
        ("name", .arr [.str "a",
          .obj [("name", .str "name"), ("attr", .obj [])],
          .obj [("name", .str "name"), ("attr", .obj [])]])])] ∧
    ¬ ([JValue.str "a",
        .obj [("name", .str "name"), ("attr", .obj [])],
        .obj [("name", .str "name"), ("attr", .obj [])]].length = 2) :=
  ⟨rfl, by simp⟩

/-- C1 (amended): for every parent element that receives N (N at least 2)
child elements sharing one tag name t during a build, provided t is not
one of the parent's own field keys `name` and `attr` (and not `innerText`,
which the scanner's lowercasing rules out anyway), the finished tree maps
t to a sequence of exactly the N child nodes in document order, regardless
of the other interleaved content. -/
theorem c1_amended (p : String) (pa : Attrs) (items : Items) (t : String)
    (N : Nat) (h1 : t ≠ "name") (h2 : t ≠ "attr") (h3 : t ≠ "innerText")
    (hN : (elemsNamed t items).length = N) (hN2 : 2 ≤ N) :
    ∃ B, parse (itemEvents (.elem p pa items)) = some [(p, .obj B)] ∧
      lookupKey B t = some (.arr ((elemsNamed t items).map builtOf)) ∧
      ((elemsNamed t items).map builtOf).length = N := by
  refine ⟨buildItems (initElement p pa) items, parse_itemEvents p pa items,
    ?_, by simp [hN]⟩
  rw [lookup_buildItems t h3 items (initElement p pa)]
  have hinit : lookupKey (initElement p pa) t = none := by
    simp [initElement, lookupKey, Ne.symm h1, Ne.symm h2]
  rw [hinit]
  have hgen : ∀ news : List JValue, 2 ≤ news.length →
      seqResult none news = some (.arr news) := by
    intro news hlen
    match news with
    | [] => simp at hlen
    | [c] => simp at hlen
    | c :: c2 :: cs2 => simp [seqResult]
  exact hgen _ (by rw [List.length_map, hN]; exact hN2)

theorem c1_witness :
    ∃ B, parse (itemEvents (.elem "a" [] (.cons (.elem "b" [] .nil)
        (.cons (.elem "c" [] .nil) (.cons (.elem "b" [] .nil) .nil))))) =
      some [("a", .obj B)] ∧
      lookupKey B "b" = some (.arr ((elemsNamed "b" (.cons (.elem "b" [] .nil)
        (.cons (.elem "c" [] .nil)
          (.cons (.elem "b" [] .nil) .nil)))).map builtOf)) ∧
      ((elemsNamed "b" (.cons (.elem "b" [] .nil) (.cons (.elem "c" [] .nil)
        (.cons (.elem "b" [] .nil) .nil)))).map builtOf).length = 2 :=
  c1_amended "a" [] (.cons (.elem "b" [] .nil) (.cons (.elem "c" [] .nil)
    (.cons (.elem "b" [] .nil) .nil))) "b" 2
    (by decide) (by decide) (by decide) (by rfl) (by decide)

/-- C3 counterexample: the claim fails as stated.  For the event stream of
`<a><![CDATA[keep]]>drop</a>` the text event arrives after the CDATA
section closes and overwrites innerText, so the element ends with
innerText `drop`, not the CDATA content `keep`. -/
theorem c3_counterexample :
    parse [.openTag "a" [], .opencdata, .cdata "keep", .closecdata,
           .text "drop", .closetag] =
      some [("a", .obj [("name", .str "a"), ("attr", .obj []),
        ("innerText", .str "drop")])] ∧
    JValue.str "drop" ≠ JValue.str "keep" :=
  ⟨rfl, by simp⟩

/-- C3 (amended): last-processed wins.  In the stream of
`<a><![CDATA[keep]]>drop</a>` the plain text event fires last and the
element ends with innerText `drop`; in `<a>drop<![CDATA[keep]]></a>` the
CDATA section closes last and the element ends with innerText `keep`. -/
theorem c3_amended :
    parse [.openTag "a" [], .opencdata, .cdata "keep", .closecdata,
           .text "drop", .closetag] =
      some [("a", .obj [("name", .str "a"), ("attr", .obj []),
        ("innerText", .str "drop")])] ∧
    parse [.openTag "a" [], .text "drop", .opencdata, .cdata "keep",
           .closecdata, .closetag] =
      some [("a", .obj [("name", .str "a"), ("attr", .obj []),
        ("innerText", .str "keep")])] :=
  ⟨rfl, rfl⟩

/-- C5: the round-trip example.  The event stream of
`<a x="1"><b>hi</b><b>bye</b></a>` produces exactly the documented tree:
root key `a`, whose node carries name `a`, the attribute map `x: 1`, and
under `b` the ordered two-element sequence of the two `b` nodes with
innerText `hi` then `bye`. -/
theorem c5_roundtrip :
    parse [.openTag "a" [("x", "1")], .openTag "b" [], .text "hi", .closetag,
           .openTag "b" [], .text "bye", .closetag, .closetag] =
      some [("a", .obj [("name", .str "a"), ("attr", .obj [("x", .str "1")]),
        ("b", .arr [
          .obj [("name", .str "b"), ("attr", .obj []), ("innerText", .str "hi")],
          .obj [("name", .str "b"), ("attr", .obj []),
            ("innerText", .str "bye")]])])] :=
  rfl

/-- C6: getElementText returns innerText when the field is present,
otherwise falls back to the attribute named `text`, otherwise signals
absent (undefined), for every node carrying an attribute map. -/
theorem c6_text_accessor (o attrs : JObj)
    (hattr : lookupKey o "attr" = some (.obj attrs)) :
    (∀ v, lookupKey o "innerText" = some v →
      getElementText (.val (.obj o)) = some (.ret v)) ∧
    (lookupKey o "innerText" = none → ∀ w, lookupKey attrs "text" = some w →
      getElementText (.val (.obj o)) = some (.ret w)) ∧
    (lookupKey o "innerText" = none → lookupKey attrs "text" = none →
      getElementText (.val (.obj o)) = some .undef) := by
  refine ⟨?_, ?_, ?_⟩
  · intro v hv
    simp [getElementText, isNonNode, hv]
  · intro h0 w hw
    simp [getElementText, isNonNode, h0, hattr, hw]
  · intro h0 h1
    simp [getElementText, isNonNode, h0, hattr, h1]

theorem c6_witness :
    getElementText (.val (.obj [("name", .str "a"), ("attr", .obj []),
      ("innerText", .str "inner")])) = some (.ret (.str "inner")) ∧
    getElementText (.val (.obj [("name", .str "a"),
      ("attr", .obj [("text", .str "fallback")])])) =
      some (.ret (.str "fallback")) ∧
    getElementText (.val (.obj [("name", .str "a"), ("attr", .obj [])])) =
      some .undef :=
  ⟨(c6_text_accessor [("name", .str "a"), ("attr", .obj []),
      ("innerText", .str "inner")] [] rfl).1 _ rfl,
   (c6_text_accessor [("name", .str "a"),
      ("attr", .obj [("text", .str "fallback")])]
      [("text", .str "fallback")] rfl).2.1 rfl _ rfl,
   (c6_text_accessor [("name", .str "a"), ("attr", .obj [])] [] rfl).2.2
      rfl rfl⟩

/-- C7: a key absent from the node's attribute map yields the absent
result (undefined), and this is distinguishable from a present attribute
whose value is the empty string, which yields the empty string. -/
theorem c7_attr_absent (o attrs : JObj) (key : String)
    (hattr : lookupKey o "attr" = some (.obj attrs))
    (hmiss : lookupKey attrs key = none) :
    getElementAttr (.val (.obj o)) key = some .undef ∧
    getElementAttr (.val (.obj [("name", .str "n"),
      ("attr", .obj [("present", .str "")])])) "present" =
      some (.ret (.str "")) ∧
    JSRet.ret (.str "") ≠ JSRet.undef := by
  refine ⟨?_, rfl, by simp⟩
  simp [getElementAttr, isNonNode, hattr, hmiss]

theorem c7_witness :
    getElementAttr (.val (.obj [("name", .str "n"), ("attr", .obj [])]))
      "missing" = some .undef ∧
    getElementAttr (.val (.obj [("name", .str "n"),
      ("attr", .obj [("present", .str "")])])) "present" =
      some (.ret (.str "")) ∧
    JSRet.ret (.str "") ≠ JSRet.undef :=
  c7_attr_absent [("name", .str "n"), ("attr", .obj [])] [] "missing" rfl rfl

/-- C8 counterexample: the claim fails as stated.  On an object lacking an
attr field (a non-node input the claim covers), both accessors evaluate
the `in` operator on undefined and throw a TypeError (`none`) instead of
returning an absent result. -/
theorem c8_counterexample :
    getElementAttr (.val (.obj [])) "missing" = none ∧
    getElementText (.val (.obj [])) = none :=
  ⟨rfl, rfl⟩

/-- C8 (amended): null, undefined and primitive (non-object) inputs make
both accessors return the absent result rather than fail; an object
lacking an attr field, however, is not guarded against and makes them
throw (see the counterexample). -/
theorem c8_amended (attr : String) (s : String) :
    getElementAttr .undef attr = some .undef ∧
    getElementAttr .nullv attr = some .undef ∧
    getElementAttr (.val (.str s)) attr = some .undef ∧
    getElementText .undef = some .undef ∧
    getElementText .nullv = some .undef ∧
    getElementText (.val (.str s)) = some .undef :=
  ⟨rfl, rfl, rfl, rfl, rfl, rfl⟩

/-- C9: when the file read fails, parseFromFile raises the IOError wrapper
`An error occurred: ...` and the completion callback is never invoked; a
callback value is produced only in the successful-read branch. -/
theorem c9_io_error (lex : String → List Event) (e : String) :
    parseFromFile lex (.error e) =
      .error ("An error occurred: " ++ e) ∧
    ∀ d : String, parseFromFile lex (.ok d) = .ok (parse (lex d)) :=
  ⟨rfl, fun _ => rfl⟩

/-- C10 counterexample: the claim fails as stated.  The stream consisting
of one Text event contains no OpenTag event, yet parse throws (the text
callback pops an empty stack and dereferences undefined) and the callback
is never invoked, instead of delivering an empty root. -/
theorem c10_counterexample : parse [Event.text "hi"] = none :=
  rfl

/-- C10 (amended): for an event stream with no OpenTag event and also no
Text or CDATA-close event (in particular the empty stream obtained from
parsing the empty string), parse completes and invokes the callback
exactly once with the empty root mapping. -/
theorem c10_amended (evs : List Event)
    (h : ∀ e ∈ evs, e = Event.opencdata ∨ (∃ s, e = Event.cdata s) ∨
      e = Event.closetag ∨ e = Event.error) :
    parse evs = some [] := by
  have key : ∀ (l : List Event), (∀ e ∈ l, e = Event.opencdata ∨
      (∃ s, e = Event.cdata s) ∨ e = Event.closetag ∨ e = Event.error) →
      ∀ c, ∃ c', runEvents ⟨[], [], c⟩ l = some ⟨[], [], c'⟩ := by
    intro l
    induction l with
    | nil => intro _ c; exact ⟨c, rfl⟩
    | cons e rest ih =>
        intro hh c
        have he := hh e (by simp)
        have hr : ∀ e' ∈ rest, e' = Event.opencdata ∨
            (∃ s, e' = Event.cdata s) ∨ e' = Event.closetag ∨
            e' = Event.error := fun e' hm => hh e' (by simp [hm])
        rcases he with he | ⟨s, he⟩ | he | he
        · subst he
          obtain ⟨c', hc⟩ := ih hr ""
          refine ⟨c', ?_⟩
          rw [runEvents_cons_of_step Event.opencdata ⟨[], [], c⟩
            ⟨[], [], ""⟩ rest rfl]
          exact hc
        · subst he
          obtain ⟨c', hc⟩ := ih hr (c ++ s)
          refine ⟨c', ?_⟩
          rw [runEvents_cons_of_step (Event.cdata s) ⟨[], [], c⟩
            ⟨[], [], c ++ s⟩ rest rfl]
          exact hc
        · subst he
          obtain ⟨c', hc⟩ := ih hr c
          refine ⟨c', ?_⟩
          rw [runEvents_cons_of_step Event.closetag ⟨[], [], c⟩
            ⟨[], [], c⟩ rest rfl]
          exact hc
        · subst he
          obtain ⟨c', hc⟩ := ih hr c
          refine ⟨c', ?_⟩
          rw [runEvents_cons_of_step Event.error ⟨[], [], c⟩
            ⟨[], [], c⟩ rest rfl]
          exact hc
  obtain ⟨c', hc⟩ := key evs h ""
  simp [parse, hc]

theorem c10_witness :
    parse [Event.opencdata, Event.cdata "x", Event.closetag] = some [] :=
  c10_amended [Event.opencdata, Event.cdata "x", Event.closetag]
    (by
      intro e he
      simp only [List.mem_cons, List.not_mem_nil, or_false] at he
      rcases he with rfl | rfl | rfl
      · exact Or.inl rfl
      · exact Or.inr (Or.inl ⟨"x", rfl⟩)
      · exact Or.inr (Or.inr (Or.inl rfl)))

/-- No array occurs anywhere inside the value: every descendant slot holds
a lone value, never a sequence. -/
def NoArrIn (v : JValue) : Prop := ∀ w, Occurs w v → ¬ isArr w

theorem occurs_str (w : JValue) (s : String) (h : Occurs w (.str s)) :
    w = .str s := by
  cases h with
  | refl => rfl

theorem noArrIn_str (s : String) : NoArrIn (.str s) := by
  intro w hw
  cases hw with
  | refl => simp [isArr]

theorem occurs_obj_inv {W : JValue} {o : JObj} (h : Occurs W (.obj o)) :
    W = .obj o ∨ ∃ k wmid, lookupKey o k = some wmid ∧ Occurs W wmid := by
  cases h with
  | refl => exact Or.inl rfl
  | inObj wmid _o k' hlk hocc => exact Or.inr ⟨k', wmid, hlk, hocc⟩

theorem occurs_arr_inv {W : JValue} {xs : List JValue}
    (h : Occurs W (.arr xs)) :
    W = .arr xs ∨ ∃ wmid ∈ xs, Occurs W wmid := by
  cases h with
  | refl => exact Or.inl rfl
  | inArr wmid _xs hmem hocc => exact Or.inr ⟨wmid, hmem, hocc⟩

theorem noArrIn_setKey (o : JObj) (k : String) (v : JValue)
    (h1 : NoArrIn (.obj o)) (h2 : NoArrIn v) :
    NoArrIn (.obj (setKey o k v)) := by
  intro w hw
  rcases occurs_obj_inv hw with rfl | ⟨k', wmid, hlk, hocc⟩
  · simp [isArr]
  · by_cases hk : k' = k
    · subst hk
      rw [lookupKey_setKey_self] at hlk
      exact h2 w ((Option.some.inj hlk) ▸ hocc)
    · rw [lookupKey_setKey_ne o k k' v hk] at hlk
      exact h1 w (Occurs.inObj wmid o k' hlk hocc)

theorem lookup_attrs_str (a : Attrs) (k : String) (w : JValue)
    (h : lookupKey (a.map (fun kv => (kv.1, JValue.str kv.2))) k = some w) :
    ∃ s, w = .str s := by
  induction a with
  | nil => simp [lookupKey] at h
  | cons kv rest ih =>
      simp only [List.map_cons, lookupKey] at h
      by_cases hk : kv.1 = k
      · simp only [hk, if_pos rfl] at h
        exact ⟨kv.2, (Option.some.inj h).symm⟩
      · rw [if_neg hk] at h
        exact ih h

theorem noArrIn_attrsToVal (a : Attrs) : NoArrIn (attrsToVal a) := by
  intro w hw
  simp only [attrsToVal] at hw
  rcases occurs_obj_inv hw with rfl | ⟨k, wmid, hlk, hocc⟩
  · simp [isArr]
  · obtain ⟨s, rfl⟩ := lookup_attrs_str a k wmid hlk
    rw [occurs_str w s hocc]
    simp [isArr]

theorem noArrIn_initElement (n : String) (a : Attrs) :
    NoArrIn (.obj (initElement n a)) := by
  intro w hw
  simp only [initElement] at hw
  rcases occurs_obj_inv hw with rfl | ⟨k, wmid, hlk, hocc⟩
  · simp [isArr]
  · simp only [lookupKey] at hlk
    by_cases h1 : "name" = k
    · rw [if_pos h1] at hlk
      have hv : JValue.str n = wmid := Option.some.inj hlk
      rw [occurs_str w n (hv ▸ hocc)]
      simp [isArr]
    · rw [if_neg h1] at hlk
      by_cases h2 : "attr" = k
      · rw [if_pos h2] at hlk
        have hv : attrsToVal a = wmid := Option.some.inj hlk
        exact noArrIn_attrsToVal a w (hv ▸ hocc)
      · rw [if_neg h2] at hlk
        simp [lookupKey] at hlk

theorem hasKey_initElement (n : String) (a : Attrs) (tg : String)
    (h1 : tg ≠ "name") (h2 : tg ≠ "attr") :
    hasKey (initElement n a) tg = false := by
  simp [hasKey, initElement, lookupKey, Ne.symm h1, Ne.symm h2]

theorem lookupKey_none_of_hasKey_false (o : JObj) (k : String)
    (h : hasKey o k = false) : lookupKey o k = none := by
  cases hlk : lookupKey o k with
  | none => rfl
  | some v => simp [hasKey, hlk] at h

/-- Building from a parent that contains no arrays, with sibling tags that
are pairwise distinct, absent from the parent's keys, and recursively
well-formed, produces a tree that contains no arrays. -/
theorem buildItems_noArr (items : Items) : ∀ parent : JObj,
    NoArrIn (.obj parent) →
    (∀ tg ∈ elemTags items, tg ≠ "innerText" ∧ hasKey parent tg = false) →
    nodupB (elemTags items) = true →
    uniqOkIts items = true →
    NoArrIn (.obj (buildItems parent items)) := by
  match items with
  | .nil =>
      intro parent h1 _ _ _
      rw [show buildItems parent Items.nil = parent from by simp [buildItems]]
      exact h1
  | .cons (.txt s) rest =>
      intro parent h1 h2 h3 h4
      rw [show buildItems parent (Items.cons (.txt s) rest)
          = buildItems (setKey parent "innerText" (.str s)) rest from by
        simp [buildItems, buildItem]]
      apply buildItems_noArr rest
      · exact noArrIn_setKey _ _ _ h1 (noArrIn_str s)
      · intro tg htg
        have hh := h2 tg (by simpa [elemTags] using htg)
        refine ⟨hh.1, ?_⟩
        rw [hasKey_setKey]
        simp [hh.1, hh.2]
      · simpa [elemTags] using h3
      · simpa [uniqOkIts, uniqOkIt] using h4
  | .cons (.cdataSec cks) rest =>
      intro parent h1 h2 h3 h4
      rw [show buildItems parent (Items.cons (.cdataSec cks) rest)
          = buildItems (setKey parent "innerText"
              (.str (joinChunks cks))) rest from by
        simp [buildItems, buildItem]]
      apply buildItems_noArr rest
      · exact noArrIn_setKey _ _ _ h1 (noArrIn_str _)
      · intro tg htg
        have hh := h2 tg (by simpa [elemTags] using htg)
        refine ⟨hh.1, ?_⟩
        rw [hasKey_setKey]
        simp [hh.1, hh.2]
      · simpa [elemTags] using h3
      · simpa [uniqOkIts, uniqOkIt] using h4
  | .cons (.elem m b cs) rest =>
      intro parent h1 h2 h3 h4
      have hm := h2 m (by simp [elemTags])
      have hlkm : lookupKey parent m = none :=
        lookupKey_none_of_hasKey_false parent m hm.2
      have h4' : uniqOkIt (.elem m b cs) = true ∧ uniqOkIts rest = true := by
        simpa [uniqOkIts] using h4
      have hcs : nodupB (elemTags cs) = true ∧
          (∀ tg ∈ elemTags cs, tg ≠ "name" ∧ tg ≠ "attr" ∧ tg ≠ "innerText") ∧
          uniqOkIts cs = true := by
        have hhead := h4'.1
        simp only [uniqOkIt, Bool.and_eq_true, List.all_eq_true] at hhead
        refine ⟨hhead.1.1, ?_, hhead.2⟩
        intro tg htg
        have := hhead.1.2 tg htg
        simp only [Bool.and_eq_true, bne_iff_ne] at this
        exact ⟨this.1.1, this.1.2, this.2⟩
      have hchild : NoArrIn (.obj (buildItems (initElement m b) cs)) := by
        apply buildItems_noArr cs
        · exact noArrIn_initElement m b
        · intro tg htg
          obtain ⟨hn, ha, hi⟩ := hcs.2.1 tg htg
          exact ⟨hi, hasKey_initElement m b tg hn ha⟩
        · exact hcs.1
        · exact hcs.2.2
      have hattach : attach parent m (.obj (buildItems (initElement m b) cs))
          = setKey parent m (.obj (buildItems (initElement m b) cs)) := by
        simp [attach, hlkm]
      have hnd : ((elemTags rest).contains m) = false
          ∧ nodupB (elemTags rest) = true := by
        have := h3
        simp only [elemTags, nodupB, Bool.and_eq_true, Bool.not_eq_true',
          Bool.not_eq_eq_eq_not] at this
        exact ⟨by simpa using this.1, this.2⟩
      rw [show buildItems parent (Items.cons (.elem m b cs) rest)
          = buildItems (attach parent m
              (.obj (buildItems (initElement m b) cs))) rest from by
        simp [buildItems, buildItem]]
      apply buildItems_noArr rest
      · rw [hattach]
        exact noArrIn_setKey _ _ _ h1 hchild
      · intro tg htg
        have hh := h2 tg (by simp [elemTags, htg])
        refine ⟨hh.1, ?_⟩
        have hne : tg ≠ m := by
          intro heq
          subst heq
          have : (elemTags rest).contains tg = true := List.elem_iff.mpr htg
          rw [hnd.1] at this
          cases this
        rw [hattach, hasKey_setKey]
        simp [hne, hh.2]
      · exact hnd.2
      · exact h4'.2
termination_by sizeIts items
decreasing_by
  all_goals simp [sizeIts, sizeIt]
  all_goals omega

/-- C2 counterexample: the claim fails as stated.  The stream of
`<a><name/></a>` is well-formed with a single root and no repeated sibling
tags, yet the descendant key `name` maps to a two-element sequence (the
child tag collides with the node's own `name` field). -/
theorem c2_counterexample :
    parse [.openTag "a" [], .openTag "name" [], .closetag, .closetag] =
      some [("a", .obj [("attr", .obj []),
        ("name", .arr [.str "a",
          .obj [("name", .str "name"), ("attr", .obj [])]])])] ∧
    isArr (.arr [JValue.str "a",
      .obj [("name", .str "name"), ("attr", .obj [])]]) :=
  ⟨rfl, trivial⟩

/-- C2 (amended): for a well-nested document with a single root, no two
sibling elements sharing a tag name, and no child tag equal to the node
field keys `name` or `attr` (tag names are lowercased by the scanner, so
`innerText` cannot occur), the tree has exactly one top-level key - the
root tag - and no key anywhere maps to a sequence. -/
theorem c2_amended (r : String) (ra : Attrs) (cs : Items)
    (h : uniqOkIt (.elem r ra cs) = true) :
    ∃ B, parse (itemEvents (.elem r ra cs)) = some [(r, .obj B)] ∧
      ∀ w, Occurs w (.obj B) → ¬ isArr w := by
  refine ⟨buildItems (initElement r ra) cs, parse_itemEvents r ra cs, ?_⟩
  have hcs : nodupB (elemTags cs) = true ∧
      (∀ tg ∈ elemTags cs, tg ≠ "name" ∧ tg ≠ "attr" ∧ tg ≠ "innerText") ∧
      uniqOkIts cs = true := by
    simp only [uniqOkIt, Bool.and_eq_true, List.all_eq_true] at h
    refine ⟨h.1.1, ?_, h.2⟩
    intro tg htg
    have := h.1.2 tg htg
    simp only [Bool.and_eq_true, bne_iff_ne] at this
    exact ⟨this.1.1, this.1.2, this.2⟩
  exact buildItems_noArr cs (initElement r ra) (noArrIn_initElement r ra)
    (fun tg htg => by
      obtain ⟨hn, ha, hi⟩ := hcs.2.1 tg htg
      exact ⟨hi, hasKey_initElement r ra tg hn ha⟩)
    hcs.1 hcs.2.2

theorem c2_witness :
    ∃ B, parse (itemEvents (.elem "a" [("x", "1")]
        (.cons (.elem "b" [] .nil) (.cons (.elem "c" [] .nil) .nil)))) =
      some [("a", .obj B)] ∧
      ∀ w, Occurs w (.obj B) → ¬ isArr w :=
  c2_amended "a" [("x", "1")]
    (.cons (.elem "b" [] .nil) (.cons (.elem "c" [] .nil) .nil)) (by decide)

/-- The attr field of a node value. -/
def elemAttr : JValue → Option JValue
  | .obj o => lookupKey o "attr"
  | _ => none

/-- The attributes an element fragment carries at its open-tag event. -/
def attrsOfItem : Item → Attrs
  | .elem _ b _ => b
  | _ => []

theorem occurs_trans {a b c : JValue} (h1 : Occurs a b) (h2 : Occurs b c) :
    Occurs a c := by
  induction h2 with
  | refl => exact h1
  | inObj wmid o k hlk _hocc ih => exact Occurs.inObj wmid o k hlk ih
  | inArr wmid xs hmem _hocc ih => exact Occurs.inArr wmid xs hmem ih

theorem seqResult_mem (v0 : Option JValue) (news : List JValue) (x : JValue)
    (hx : x ∈ news) :
    ∃ w, seqResult v0 news = some w ∧
      (w = x ∨ ∃ ys, w = .arr ys ∧ x ∈ ys) := by
  match news with
  | [] => simp at hx
  | c :: cs =>
      match v0 with
      | none =>
          cases cs with
          | nil =>
              have hxc : x = c := by simpa using hx
              exact ⟨c, by simp [seqResult], Or.inl hxc.symm⟩
          | cons c2 cs2 =>
              exact ⟨.arr (c :: c2 :: cs2), by simp [seqResult],
                Or.inr ⟨c :: c2 :: cs2, rfl, hx⟩⟩
      | some (.arr xs) =>
          exact ⟨.arr (xs ++ (c :: cs)), by simp [seqResult],
            Or.inr ⟨xs ++ (c :: cs), rfl, by simp [hx]⟩⟩
      | some (.str s) =>
          exact ⟨.arr (.str s :: (c :: cs)), by simp [seqResult],
            Or.inr ⟨.str s :: (c :: cs), rfl, List.mem_cons_of_mem _ hx⟩⟩
      | some (.num n0) =>
          exact ⟨.arr (.num n0 :: (c :: cs)), by simp [seqResult],
            Or.inr ⟨.num n0 :: (c :: cs), rfl, List.mem_cons_of_mem _ hx⟩⟩
      | some (.obj o0) =>
          exact ⟨.arr (.obj o0 :: (c :: cs)), by simp [seqResult],
            Or.inr ⟨.obj o0 :: (c :: cs), rfl, List.mem_cons_of_mem _ hx⟩⟩

theorem elemsNamed_nil_of (t : String) (cs : Items)
    (h : ∀ tg ∈ elemTags cs, tg ≠ t) : elemsNamed t cs = [] := by
  match cs with
  | .nil => rfl
  | .cons (.txt s) rest =>
      rw [show elemsNamed t (Items.cons (.txt s) rest)
          = elemsNamed t rest from by simp [elemsNamed]]
      exact elemsNamed_nil_of t rest
        (fun tg htg => h tg (by simpa [elemTags] using htg))
  | .cons (.cdataSec cks) rest =>
      rw [show elemsNamed t (Items.cons (.cdataSec cks) rest)
          = elemsNamed t rest from by simp [elemsNamed]]
      exact elemsNamed_nil_of t rest
        (fun tg htg => h tg (by simpa [elemTags] using htg))
  | .cons (.elem m b ccs) rest =>
      have hm : m ≠ t := h m (by simp [elemTags])
      rw [show elemsNamed t (Items.cons (.elem m b ccs) rest)
          = elemsNamed t rest from by simp [elemsNamed, hm]]
      exact elemsNamed_nil_of t rest
        (fun tg htg => h tg (by simp [elemTags, htg]))

theorem mem_elemsNamed_self (m : String) (b : Attrs) (ccs : Items)
    (cs : Items) (h : Item.elem m b ccs ∈ itemsList cs) :
    Item.elem m b ccs ∈ elemsNamed m cs := by
  match cs with
  | .nil => simp [itemsList] at h
  | .cons i rest =>
      simp only [itemsList, List.mem_cons] at h
      rcases h with h | h
      · rw [← h]
        simp [elemsNamed]
      · have ih := mem_elemsNamed_self m b ccs rest h
        cases i with
        | txt s => simpa [elemsNamed] using ih
        | cdataSec cks => simpa [elemsNamed] using ih
        | elem m' b' cs' =>
            by_cases hm : m' = m
            · subst hm
              simp [elemsNamed, ih]
            · simpa [elemsNamed, hm] using ih

theorem tag_mem_of_mem (mc : String) (bc : Attrs) (csc : Items) (cs : Items)
    (h : Item.elem mc bc csc ∈ itemsList cs) : mc ∈ elemTags cs := by
  match cs with
  | .nil => simp [itemsList] at h
  | .cons i rest =>
      simp only [itemsList, List.mem_cons] at h
      rcases h with h | h
      · rw [← h]; simp [elemTags]
      · have ih := tag_mem_of_mem mc bc csc rest h
        cases i with
        | txt s => simpa [elemTags] using ih
        | cdataSec cks => simpa [elemTags] using ih
        | elem m' b' cs' => simp [elemTags, ih]

theorem mem_subItemsList (s : Item) (cs : Items)
    (h : s ∈ subItemsList cs) : ∃ c, c ∈ itemsList cs ∧ s ∈ subItems c := by
  match cs with
  | .nil => simp [subItemsList] at h
  | .cons i rest =>
      rw [show subItemsList (Items.cons i rest)
          = subItems i ++ subItemsList rest from by simp [subItemsList]] at h
      rcases List.mem_append.mp h with h | h
      · exact ⟨i, by simp [itemsList], h⟩
      · obtain ⟨c, hc1, hc2⟩ := mem_subItemsList s rest h
        exact ⟨c, by simp [itemsList, hc1], hc2⟩

theorem sizeIt_of_mem (c : Item) (cs : Items) (h : c ∈ itemsList cs) :
    sizeIt c ≤ sizeIts cs := by
  match cs with
  | .nil => simp [itemsList] at h
  | .cons i rest =>
      simp only [itemsList, List.mem_cons] at h
      rw [show sizeIts (Items.cons i rest) = sizeIt i + sizeIts rest from by
        simp [sizeIts]]
      rcases h with rfl | h
      · omega
      · have := sizeIt_of_mem c rest h
        omega

theorem attrOkIts_mem (cs : Items) (c : Item) (h : attrOkIts cs = true)
    (hm : c ∈ itemsList cs) : attrOkIt c = true := by
  match cs with
  | .nil => simp [itemsList] at hm
  | .cons i rest =>
      have h' : attrOkIt i = true ∧ attrOkIts rest = true := by
        simpa [attrOkIts] using h
      simp only [itemsList, List.mem_cons] at hm
      rcases hm with rfl | hm
      · exact h'.1
      · exact attrOkIts_mem rest c h'.2 hm

theorem attrOkIt_parts (m : String) (b : Attrs) (cs : Items)
    (h : attrOkIt (.elem m b cs) = true) :
    (∀ tg ∈ elemTags cs, tg ≠ "attr" ∧ tg ≠ "innerText") ∧
      attrOkIts cs = true := by
  simp only [attrOkIt, Bool.and_eq_true, List.all_eq_true] at h
  refine ⟨fun tg htg => ?_, h.2⟩
  have := h.1 tg htg
  simpa only [Bool.and_eq_true, bne_iff_ne] using this

theorem elemAttr_built (m : String) (b : Attrs) (ccs : Items)
    (h : attrOkIt (.elem m b ccs) = true) :
    lookupKey (buildItems (initElement m b) ccs) "attr"
      = some (attrsToVal b) := by
  have hattr : ∀ tg ∈ elemTags ccs, tg ≠ "attr" :=
    fun tg htg => ((attrOkIt_parts m b ccs h).1 tg htg).1
  rw [lookup_buildItems "attr" (by decide) ccs (initElement m b)]
  rw [elemsNamed_nil_of "attr" ccs hattr]
  simp [seqResult, initElement, lookupKey]

/-- Every element subtree of a well-formed fragment occurs in the built
tree with its open-tag attributes intact under its attr key. -/
theorem subItems_attr (t : Item) (h : attrOkIt t = true) :
    ∀ s ∈ subItems t, Occurs (builtOf s) (builtOf t) ∧
      elemAttr (builtOf s) = some (attrsToVal (attrsOfItem s)) := by
  match t with
  | .txt s0 => intro s hs; simp [subItems] at hs
  | .cdataSec cks => intro s hs; simp [subItems] at hs
  | .elem m b cs =>
      intro s hs
      rw [show subItems (Item.elem m b cs)
          = Item.elem m b cs :: subItemsList cs from by simp [subItems]] at hs
      rcases List.mem_cons.mp hs with rfl | hs
      · refine ⟨Occurs.refl _, ?_⟩
        rw [show builtOf (Item.elem m b cs)
            = .obj (buildItems (initElement m b) cs) from by simp [builtOf]]
        rw [show elemAttr (.obj (buildItems (initElement m b) cs))
            = lookupKey (buildItems (initElement m b) cs) "attr" from by
          simp [elemAttr]]
        rw [elemAttr_built m b cs h]
        simp [attrsOfItem]
      · obtain ⟨c, hc1, hc2⟩ := mem_subItemsList s cs hs
        cases c with
        | txt s1 => simp [subItems] at hc2
        | cdataSec cks1 => simp [subItems] at hc2
        | elem mc bc csc =>
            have hparts := attrOkIt_parts m b cs h
            have hcok : attrOkIt (.elem mc bc csc) = true :=
              attrOkIts_mem cs _ hparts.2 hc1
            have ih := subItems_attr (.elem mc bc csc) hcok s hc2
            refine ⟨occurs_trans ih.1 ?_, ih.2⟩
            have hmcne : mc ≠ "innerText" :=
              (hparts.1 mc (tag_mem_of_mem mc bc csc cs hc1)).2
            have hmem := mem_elemsNamed_self mc bc csc cs hc1
            have hx : builtOf (Item.elem mc bc csc)
                ∈ (elemsNamed mc cs).map builtOf :=
              List.mem_map_of_mem _ hmem
            obtain ⟨w, hw1, hw2⟩ := seqResult_mem
              (lookupKey (initElement m b) mc)
              ((elemsNamed mc cs).map builtOf) _ hx
            have hlkw : lookupKey (buildItems (initElement m b) cs) mc
                = some w := by
              rw [lookup_buildItems mc hmcne cs (initElement m b)]
              exact hw1
            rw [show builtOf (Item.elem m b cs)
                = .obj (buildItems (initElement m b) cs) from by simp [builtOf]]
            rcases hw2 with rfl | ⟨ys, rfl, hin⟩
            · exact Occurs.inObj _ _ mc hlkw (Occurs.refl _)
            · exact Occurs.inObj (.arr ys) _ mc hlkw
                (Occurs.inArr _ ys hin (Occurs.refl _))
termination_by sizeIt t
decreasing_by
  have hsz := sizeIt_of_mem (.elem mc bc csc) cs hc1
  simp only [sizeIt] at hsz ⊢
  omega

/-- C4 counterexample: the claim fails as stated.  In the stream of
`<a x="1"><attr/></a>` the attributes captured at the open-tag event of
`a` are the map `x: 1`, but the later open-tag event of the child named
`attr` promotes the parent's attr field into a two-element array, so the
finished attr mapping differs from the captured one. -/
theorem c4_counterexample :
    parse [.openTag "a" [("x", "1")], .openTag "attr" [], .closetag,
           .closetag] =
      some [("a", .obj [("name", .str "a"),
        ("attr", .arr [.obj [("x", .str "1")],
          .obj [("name", .str "attr"), ("attr", .obj [])]])])] ∧
    JValue.arr [.obj [("x", .str "1")],
      .obj [("name", .str "attr"), ("attr", .obj [])]]
      ≠ .obj [("x", .str "1")] :=
  ⟨rfl, by simp⟩

/-- C4 (amended): for a build in which no element has a child tag named
`attr` (tag names are lowercased by the scanner, so `innerText` cannot
occur either), every element node in the finished tree still carries,
under its attr key, exactly the attributes captured at its open-tag
event - no later event modifies it. -/
theorem c4_amended (r : String) (ra : Attrs) (cs : Items)
    (h : attrOkIt (.elem r ra cs) = true) :
    ∃ B, parse (itemEvents (.elem r ra cs)) = some [(r, .obj B)] ∧
      JValue.obj B = builtOf (.elem r ra cs) ∧
      ∀ s ∈ subItems (.elem r ra cs),
        Occurs (builtOf s) (.obj B) ∧
        elemAttr (builtOf s) = some (attrsToVal (attrsOfItem s)) := by
  refine ⟨buildItems (initElement r ra) cs, parse_itemEvents r ra cs,
    by simp [builtOf], ?_⟩
  intro s hs
  have hres := subItems_attr (.elem r ra cs) h s hs
  rwa [show builtOf (Item.elem r ra cs)
      = .obj (buildItems (initElement r ra) cs) from by simp [builtOf]] at hres

theorem c4_witness :
    ∃ B, parse (itemEvents (.elem "a" [("x", "1")]
        (.cons (.elem "b" [("y", "2")] .nil) .nil))) =
      some [("a", .obj B)] ∧
      JValue.obj B = builtOf (.elem "a" [("x", "1")]
        (.cons (.elem "b" [("y", "2")] .nil) .nil)) ∧
      ∀ s ∈ subItems (.elem "a" [("x", "1")]
          (.cons (.elem "b" [("y", "2")] .nil) .nil)),
        Occurs (builtOf s) (.obj B) ∧
        elemAttr (builtOf s) = some (attrsToVal (attrsOfItem s)) :=
  c4_amended "a" [("x", "1")] (.cons (.elem "b" [("y", "2")] .nil) .nil)
    (by decide)
